import Mathlib

set_option maxRecDepth 8000

/-
  Shallow embedding of the i18n-plus plugin core:
  - `I18nTranslator` (src/src/framework/translator.ts): lookup, fallback,
    interpolation, dictionary validation, load/unload.
  - `CloudManager.isUpdateAvailable` (src/src/services/cloud-manager.ts).
  - `DictionaryStore.saveDictionary` / `loadDictionary` (src/unnamed/part_001).
  - `ThemeExtractor.computeHash` (src/src/services/theme-extractor.ts).
-/

namespace I18nPlus

/-- JSON values: the universe of dictionary payloads handled by the framework
(`Dictionary` in src/src/framework/types.ts is a JS object; `validateDictionary`
accepts `unknown`, so every JSON value can appear). Numbers are modelled as
integers (the payloads of interest carry strings; numeric values only need to
be recognisably non-strings). -/
inductive JsonVal where
  | str (s : String)
  | num (n : Int)
  | bool (b : Bool)
  | null
  | obj (entries : List (String × JsonVal))
  | arr (elems : List JsonVal)

/-- A JS object as an ordered association list.  Objects produced by
`JSON.parse` have unique keys, on which first-match lookup coincides with JS
property access. -/
abbrev Dict := List (String × JsonVal)

/-- JS `Map.get` / object property read. -/
def mapGet {α β : Type} [BEq α] (m : List (α × β)) (k : α) : Option β :=
  (m.find? (fun p => p.1 == k)).map (fun p => p.2)

/-- JS `Map.set` / object property write: update in place if the key exists,
append otherwise. -/
def mapSet {α β : Type} [BEq α] (m : List (α × β)) (k : α) (v : β) :
    List (α × β) :=
  if m.any (fun p => p.1 == k) then
    m.map (fun p => if p.1 == k then (k, v) else p)
  else
    m ++ [(k, v)]

/-- JS `Map.has`. -/
def mapHas {α β : Type} [BEq α] (m : List (α × β)) (k : α) : Bool :=
  m.any (fun p => p.1 == k)

/-- JS `Map.delete` (on unique-key lists, removing every binding of `k`
equals removing the one binding of `k`). -/
def mapDelete {α β : Type} [BEq α] (m : List (α × β)) (k : α) :
    List (α × β) :=
  m.filter (fun p => !(p.1 == k))

/-- Interpolation parameter values (`string | number` in the `t` signature). -/
inductive PVal where
  | str (s : String)
  | num (n : Int)
deriving Repr, DecidableEq

/-- JS `String(value)` on a parameter value. -/
def PVal.display : PVal → String
  | .str s => s
  | .num n => toString n

/-- JS truthiness of a parameter value (`""` and `0` are falsy). -/
def PVal.truthy : PVal → Bool
  | .str s => s != ""
  | .num n => n != 0

/-- Interpolation parameter records. -/
abbrev Params := List (String × PVal)

/-- JS `\w`: ASCII letters, digits and underscore. -/
def isWordChar (c : Char) : Bool :=
  c.isAlpha || c.isDigit || c == '_'

/-- Split a character list into its maximal leading `\w+` run and the rest. -/
def spanWord : List Char → List Char × List Char
  | [] => ([], [])
  | c :: cs =>
    if isWordChar c then
      let p := spanWord cs
      (c :: p.1, p.2)
    else
      ([], c :: cs)

/-- The `\}?\}` tail of the placeholder regex: greedily consume two closing
braces when two are available, one when only one is, fail otherwise.
Returns the consumed closers and the remaining input. -/
def matchClose (l : List Char) : Option (List Char × List Char) :=
  match l with
  | [] => none
  | c :: rest =>
    if c = '}' then
      match rest with
      | [] => some (['}'], [])
      | c2 :: rest2 => if c2 = '}' then some (['}', '}'], rest2) else some (['}'], rest)
    else none

/-- Match the regex `\{\{?(\w+)\}?\}` at the start of `'{' :: cs` (the leading
`'{'` has already been consumed).  Returns the captured group, the matched
text minus its leading `'{'`, and the remaining input.  The two branches
mirror the regex engine's backtracking: when `\{\{?` greedily takes a second
brace and the rest fails, `\w+` cannot match that second `'{'` either, so the
whole position fails. -/
def matchPlaceholder (cs : List Char) : Option (String × List Char × List Char) :=
  match cs with
  | [] => none
  | c :: cs2 =>
    if c = '{' then
      let p := spanWord cs2
      if p.1 = [] then none
      else
        match matchClose p.2 with
        | some (closers, r) => some (p.1.asString, '{' :: p.1 ++ closers, r)
        | none => none
    else
      let p := spanWord cs
      if p.1 = [] then none
      else
        match matchClose p.2 with
        | some (closers, r) => some (p.1.asString, p.1 ++ closers, r)
        | none => none

/-- The own property names of `Object.prototype`, all of which match `\w+`.
The interpolation parameter bag is a plain object built by rest-spread
(`const \x7b context: _ctx, ...interpolationParams \x7d = params`), so
`params[key]` (translator.ts:115) also finds these inherited members. -/
def objectProtoNames : List String :=
  ["constructor", "hasOwnProperty", "isPrototypeOf", "propertyIsEnumerable",
   "toLocaleString", "toString", "valueOf", "__defineGetter__",
   "__defineSetter__", "__lookupGetter__", "__lookupSetter__", "__proto__"]

/-- `String(Object.prototype[name])` as V8 (Electron) prints it: the
`__proto__` accessor yields `Object.prototype` itself (whose string form is
`[object Object]`), `constructor` is the `Object` function, and every method
prints as a native function under its own name. -/
def objectProtoValue (g : String) : PVal :=
  if g = "__proto__" then PVal.str "[object Object]"
  else if g = "constructor" then
    PVal.str "function Object() \x7b [native code] \x7d"
  else PVal.str ("function " ++ g ++ "() \x7b [native code] \x7d")

/-- `params[key]` on a plain object, with JS prototype-chain semantics: an
own parameter wins, and otherwise the members inherited from
`Object.prototype` are still defined values. -/
def paramLookup (ps : Params) (g : String) : Option PVal :=
  match mapGet ps g with
  | some v => some v
  | none =>
    if objectProtoNames.contains g then some (objectProtoValue g) else none

/-- One pass of `text.replace(/\{\{?(\w+)\}?\}/g, ...)`: scan left to right,
replace each leftmost match whose group is a defined value of `params[key]`
(own parameter or `Object.prototype` member) with `String(value)`, keep the
matched text verbatim otherwise.  Fuel-driven so the definition evaluates by
kernel reduction; `fuel = length` always suffices because every step consumes
at least one character. -/
def interpGo (ps : Params) : Nat → List Char → List Char
  | _, [] => []
  | 0, l => l
  | fuel + 1, c :: cs =>
    if c = '{' then
      match matchPlaceholder cs with
      | some (g, matchedTail, rest) =>
        (match paramLookup ps g with
         | some v => (PVal.display v).data
         | none => '{' :: matchedTail) ++ interpGo ps fuel rest
      | none => c :: interpGo ps fuel cs
    else
      c :: interpGo ps fuel cs

/-- Character-level interpolation with exactly enough fuel. -/
def interpChars (ps : Params) (l : List Char) : List Char :=
  interpGo ps l.length l

/-- `I18nTranslator.interpolate` (translator.ts:113-118). -/
def interpolate (text : String) (params : Params) : String :=
  (interpChars params text.data).asString

/-- Translator state (class fields of `I18nTranslator`). -/
structure I18nTranslator where
  pluginId : String
  baseLocale : String
  currentLocale : String
  baseDictionary : Dict
  dictionaries : List (String × Dict)

/-- Constructor options (`TranslatorOptions`). -/
structure TranslatorOptions where
  pluginId : String
  baseLocale : String
  baseDictionary : Dict
  currentLocale : Option String

/-- The `I18nTranslator` constructor: `currentLocale || baseLocale`
(the empty string is falsy), and the base dictionary is stored in the map. -/
def createTranslator (o : TranslatorOptions) : I18nTranslator :=
  { pluginId := o.pluginId
    baseLocale := o.baseLocale
    currentLocale :=
      match o.currentLocale with
      | some s => if s = "" then o.baseLocale else s
      | none => o.baseLocale
    baseDictionary := o.baseDictionary
    dictionaries := mapSet [] o.baseLocale o.baseDictionary }

namespace I18nTranslator

/-- `typeof d[k] === 'string'` lookup: the value of `k` when it is a string. -/
def dictGetStr (d : Dict) (k : String) : Option String :=
  match mapGet d k with
  | some (JsonVal.str s) => some s
  | _ => none

/-- `params?.context`. -/
def getContext (params : Option Params) : Option PVal :=
  params.bind (fun ps => mapGet ps "context")

/-- The ordered candidate key list of `t`: `"key_context"` first when a
truthy context is supplied, then the bare key (translator.ts:64-68). -/
def lookupKeysOf (k : String) (ctx : Option PVal) : List String :=
  match ctx with
  | some c => if c.truthy then [k ++ "_" ++ c.display, k] else [k]
  | none => [k]

/-- The candidate × tier search of `t` (translator.ts:76-87): for each
candidate key in order, probe the current-locale overlay, then the base
dictionary; return the first string-typed value found. -/
def findTemplate (currentDict : Option Dict) (baseDict : Dict) :
    List String → Option String
  | [] => none
  | lookupKey :: rest =>
    match currentDict.bind (fun d => dictGetStr d lookupKey) with
    | some s => some s
    | none =>
      match dictGetStr baseDict lookupKey with
      | some s => some s
      | none => findTemplate currentDict baseDict rest

/-- `I18nTranslator.t` (translator.ts:58-107): candidate × tier lookup,
fail-open return of the raw key, then parameter interpolation when the
params minus the reserved `context` field are non-empty. -/
def t (tr : I18nTranslator) (key : String) (params : Option Params) : String :=
  let context := getContext params
  let lookupKeys := lookupKeysOf key context
  let currentDict := mapGet tr.dictionaries tr.currentLocale
  match findTemplate currentDict tr.baseDictionary lookupKeys with
  | none => key
  | some template =>
    match params with
    | none => template
    | some ps =>
      let interpolationParams := ps.filter (fun p => !(p.1 == "context"))
      if interpolationParams.length > 0 then
        interpolate template interpolationParams
      else
        template

/-- `I18nTranslator.unloadDictionary` (translator.ts:149-166): refuses to
unload the base dictionary; otherwise deletes the overlay if present, and
resets `currentLocale` to `baseLocale` when the unloaded locale was current. -/
def unloadDictionary (tr : I18nTranslator) (locale : String) : I18nTranslator :=
  if locale = tr.baseLocale then tr
  else if mapHas tr.dictionaries locale then
    let tr' := { tr with dictionaries := mapDelete tr.dictionaries locale }
    if tr.currentLocale = locale then { tr' with currentLocale := tr.baseLocale }
    else tr'
  else tr

/-- `I18nTranslator.setLocale` (translator.ts:171-173). -/
def setLocale (tr : I18nTranslator) (locale : String) : I18nTranslator :=
  { tr with currentLocale := locale }

/-- `I18nTranslator.getLoadedLocales` (translator.ts:185-187). -/
def getLoadedLocales (tr : I18nTranslator) : List String :=
  tr.dictionaries.map (fun p => p.1)

end I18nTranslator

/-- One entry of a validation report (`ValidationError` in types.ts). -/
structure ValidationError where
  key : String
  message : String
deriving Repr, DecidableEq

/-- `ValidationResult` in types.ts.  The TS fields `errors`/`warnings` are
`undefined` when empty; this is modelled by the empty list. -/
structure ValidationResult where
  valid : Bool
  errors : List ValidationError
  warnings : List ValidationError
deriving Repr, DecidableEq

/-- JS `typeof` on a JSON value (`typeof null` is `"object"`). -/
def typeName : JsonVal → String
  | .str _ => "string"
  | .num _ => "number"
  | .bool _ => "boolean"
  | .null => "object"
  | .obj _ => "object"
  | .arr _ => "object"

/-- JS truthiness of a JSON value. -/
def jsTruthy : JsonVal → Bool
  | .str s => s != ""
  | .num n => n != 0
  | .bool b => b
  | .null => false
  | .obj _ => true
  | .arr _ => true

/-- The enumerable own properties of a JSON value, as visited by
`Object.keys` and property reads (arrays expose their indices as keys). -/
def toEntries : JsonVal → List (String × JsonVal)
  | .obj l => l
  | .arr l => l.enum.map (fun p => (toString p.1, p.2))
  | _ => []

namespace I18nTranslator

/-- `I18nTranslator.validateDictionary` (translator.ts:214-272).
The result is an `Except` because the function is not exception-free:
when `d.$meta` is `null`, `typeof meta !== 'object'` is false (in JS
`typeof null === 'object'`), so the else branch reads `meta.locale` on
`null` and throws a `TypeError`. -/
def validateDictionary (tr : I18nTranslator) (dict : JsonVal) :
    Except String ValidationResult :=
  -- 1. basic type check: `if (!dict || typeof dict !== 'object')`
  if !(jsTruthy dict) || typeName dict != "object" then
    .ok { valid := false
          errors := [⟨"$root", "Dictionary must be an object"⟩]
          warnings := [] }
  else
    let d := toEntries dict
    -- 2. `$meta` check (if present)
    let metaStep : Except String (List ValidationError × List ValidationError) :=
      match mapGet d "$meta" with
      | none => .ok ([], [])
      | some meta =>
        match meta with
        | .null => .error "TypeError: Cannot read properties of null (reading locale)"
        | .str _ | .num _ | .bool _ =>
          .ok ([⟨"$meta", "$meta must be an object"⟩], [])
        | .obj _ | .arr _ =>
          let ml := toEntries meta
          let w1 :=
            match mapGet ml "locale" with
            | some (JsonVal.str s) =>
              if s = "" then [(⟨"$meta.locale", "Missing or invalid $meta.locale"⟩ : ValidationError)] else []
            | _ => [⟨"$meta.locale", "Missing or invalid $meta.locale"⟩]
          let w2 :=
            match mapGet ml "dictVersion" with
            | some (JsonVal.str s) =>
              if s = "" then [(⟨"$meta.dictVersion", "Missing or invalid $meta.dictVersion"⟩ : ValidationError)] else []
            | _ => [⟨"$meta.dictVersion", "Missing or invalid $meta.dictVersion"⟩]
          .ok ([], w1 ++ w2)
    match metaStep with
    | .error e => .error e
    | .ok (metaErrors, metaWarnings) =>
      -- 3. translation entries
      let baseKeys := (tr.baseDictionary.map (fun p => p.1)).filter (fun k => !(k == "$meta"))
      let dictKeys := (d.map (fun p => p.1)).filter (fun k => !(k == "$meta"))
      let unknownWarnings := dictKeys.filterMap (fun k =>
        if baseKeys.contains k then none
        else some (⟨k, "Unknown key \"" ++ k ++ "\" not in base dictionary"⟩ : ValidationError))
      let valueErrors := dictKeys.filterMap (fun k =>
        let v := (mapGet d k).getD JsonVal.null
        if typeName v != "string" && k != "$meta" then
          some (⟨k, "Value for \"" ++ k ++ "\" must be a string, got " ++ typeName v⟩ : ValidationError)
        else none)
      let missingWarnings := baseKeys.filterMap (fun k =>
        if dictKeys.contains k then none
        else some (⟨k, "Missing translation for \"" ++ k ++ "\""⟩ : ValidationError))
      let errors := metaErrors ++ valueErrors
      let warnings := metaWarnings ++ unknownWarnings ++ missingWarnings
      .ok { valid := errors.isEmpty, errors := errors, warnings := warnings }

/-- `I18nTranslator.loadDictionary` (translator.ts:123-144): validate, reject
on failure (state untouched), otherwise store the overlay. -/
def loadDictionary (tr : I18nTranslator) (locale : String) (dict : JsonVal) :
    Except String (ValidationResult × I18nTranslator) :=
  match validateDictionary tr dict with
  | .error e => .error e
  | .ok result =>
    if !result.valid then .ok (result, tr)
    else .ok (result, { tr with dictionaries := mapSet tr.dictionaries locale (toEntries dict) })

end I18nTranslator

/-- The public state-changing operations of a translator. -/
inductive TranslatorOp where
  | load (locale : String) (dict : JsonVal)
  | unload (locale : String)
  | setLoc (locale : String)

/-- Apply one operation; a thrown validation exception leaves the state
unchanged (the store is only written after validation returns). -/
def applyOp (tr : I18nTranslator) : TranslatorOp → I18nTranslator
  | .load locale dict =>
    match tr.loadDictionary locale dict with
    | .ok p => p.2
    | .error _ => tr
  | .unload locale => tr.unloadDictionary locale
  | .setLoc locale => tr.setLocale locale

/-- Apply a sequence of operations. -/
def applyOps (tr : I18nTranslator) (ops : List TranslatorOp) : I18nTranslator :=
  ops.foldl applyOp tr

namespace CloudManager

/-- `/^\d+$/.test s`. -/
def isDigitString (s : String) : Bool :=
  !s.data.isEmpty && s.data.all Char.isDigit

/-- Decimal value of a digit sequence. -/
def digitsToNat (l : List Char) : Nat :=
  l.foldl (fun acc c => 10 * acc + (c.toNat - 48)) 0

/-- JS `version.split('.')`: split at every dot, keeping empty components
(`"a..b"` gives `["a", "", "b"]`, `""` gives `[""]`). -/
def splitComponents : List Char → List (List Char)
  | [] => [[]]
  | c :: cs =>
    if c = '.' then [] :: splitComponents cs
    else
      match splitComponents cs with
      | [] => [[c]]
      | h :: t => (c :: h) :: t

/-- An IEEE-754 binary64 value as JS produces them: NaN, a signed infinity,
or a finite value `(-1)^neg * a / 2^d` with `a, d : Nat`.  Every finite
double has this form; the constructions below always emit `d = 0` for
integral values, so a canonical representative. -/
inductive JsNum where
  | nan : JsNum
  | inf : Bool → JsNum
  | fin : Bool → Nat → Nat → JsNum
deriving Repr, DecidableEq

/-- Code points of `StrWhiteSpace` (WhiteSpace and LineTerminator), which
`ToNumber` trims from both ends of a string. -/
def jsWhitespace (c : Char) : Bool :=
  decide (c.toNat ∈ ([9, 10, 11, 12, 13, 32, 160, 5760, 8192, 8193, 8194,
    8195, 8196, 8197, 8198, 8199, 8200, 8201, 8202, 8232, 8233, 8239, 8287,
    12288, 65279] : List Nat))

/-- Whitespace trim of both ends of the input. -/
def trimWs (l : List Char) : List Char :=
  ((l.dropWhile jsWhitespace).reverse.dropWhile jsWhitespace).reverse

/-- Number of binary digits of `n` (`0` for `0`), fuel-driven so that it
evaluates by kernel reduction; `fuel = n` always suffices. -/
def bitLenAux : Nat → Nat → Nat
  | 0, _ => 0
  | fuel + 1, n => if n = 0 then 0 else bitLenAux fuel (n / 2) + 1

def bitLen (n : Nat) : Nat := bitLenAux n n

/-- Number of decimal digits of `n` (`0` for `0`), fuel-driven. -/
def decDigitsAux : Nat → Nat → Nat
  | 0, _ => 0
  | fuel + 1, n => if n = 0 then 0 else decDigitsAux fuel (n / 10) + 1

def decDigits (n : Nat) : Nat := decDigitsAux n n

/-- Rounding division `n / d` to the nearest integer, ties to even. -/
def divRoundHalfEven (n d : Nat) : Nat :=
  let q := n / d
  let r := n % d
  if d < 2 * r then q + 1
  else if 2 * r < d then q
  else if q % 2 = 0 then q else q + 1

/-- Canonical form of `a / 2^d`: strip factors of `2` from `a` into `d`, so
that an integral value always becomes `(n, 0)`. -/
def canonPow2 : Nat → Nat → Nat × Nat
  | a, 0 => (a, 0)
  | a, d + 1 => if a % 2 = 0 then canonPow2 (a / 2) d else (a, d + 1)

/-- Floor of the base-2 logarithm of the positive rational `num / den`:
the bit-length difference is off by at most one, and one comparison
(`num / den ≥ 2^e0`, cross-multiplied) settles it. -/
def ratLog2 (num den : Nat) : Int :=
  let e0 : Int := (bitLen num : Int) - (bitLen den : Int)
  if 0 ≤ e0 then (if den <<< e0.toNat ≤ num then e0 else e0 - 1)
  else (if den ≤ num <<< (-e0).toNat then e0 else e0 - 1)

/-- Significand of the rounded double: `num / den * 2^(52 - e)` rounded to
the nearest integer, ties to even (`e` is the floor base-2 logarithm, so the
result lies in `[2^52, 2^53]`). -/
def ratSignificand (num den : Nat) (e : Int) : Nat :=
  if 0 ≤ 52 - e then divRoundHalfEven (num <<< (52 - e).toNat) den
  else divRoundHalfEven num (den <<< (e - 52).toNat)

/-- Rounding of the positive rational `num / den` to the nearest IEEE-754
binary64 magnitude, ties to even: `none` on overflow to infinity, otherwise
`some (a, d)` for the value `a / 2^d`.  Values below `2^-1022` round on the
subnormal grid of step `2^-1074`; a rounded value at or above `2^1024`
overflows. -/
def roundPosRat (num den : Nat) : Option (Nat × Nat) :=
  if num = 0 then some (0, 0)
  else
    let e := ratLog2 num den
    if e < -1022 then some (canonPow2 (divRoundHalfEven (num <<< 1074) den) 1074)
    else
      let m := ratSignificand num den e
      if 52 ≤ e then
        if 1 <<< 1024 ≤ m <<< (e - 52).toNat then none
        else some (m <<< (e - 52).toNat, 0)
      else some (canonPow2 m (52 - e).toNat)

/-- The double nearest to `(-1)^neg * m * 10^ex`.  The two decimal-magnitude
shortcuts are exact: with `D` decimal digits the value lies in
`[10^(ex+D-1), 10^(ex+D))`, and `10^399` already overflows every finite
double while `10^-400` is below half the smallest subnormal; they keep the
shifts of the generic rounding path bounded. -/
def sciToDouble (neg : Bool) (m : Nat) (ex : Int) : JsNum :=
  if m = 0 then JsNum.fin neg 0 0
  else if 400 ≤ ex + (decDigits m : Int) then JsNum.inf neg
  else if ex + (decDigits m : Int) ≤ -400 then JsNum.fin neg 0 0
  else
    match (if 0 ≤ ex then roundPosRat (m * 10 ^ ex.toNat) 1
           else roundPosRat m (10 ^ (-ex).toNat)) with
    | none => JsNum.inf neg
    | some (a, d) => JsNum.fin neg a d

/-- Value of a hexadecimal digit, `16` for anything else. -/
def digitVal (c : Char) : Nat :=
  if '0' ≤ c ∧ c ≤ '9' then c.toNat - 48
  else if 'a' ≤ c ∧ c ≤ 'f' then c.toNat - 87
  else if 'A' ≤ c ∧ c ≤ 'F' then c.toNat - 55
  else 16

/-- Value of a digit sequence in base `b`. -/
def baseDigitsToNat (b : Nat) (l : List Char) : Nat :=
  l.foldl (fun acc c => b * acc + digitVal c) 0

/-- Parse of a `0x`/`0o`/`0b` literal body: a non-empty run of digits of the
base, whose value is then rounded to a double; anything else is NaN. -/
def radixNumber (b : Nat) (l : List Char) : JsNum :=
  if l ≠ [] ∧ l.all (fun c => digitVal c < b) then
    sciToDouble false (baseDigitsToNat b l) 0
  else JsNum.nan

/-- Parse of the optional exponent tail `((e|E) (+|-)? digits)?`, which must
consume the whole remaining input; returns the signed decimal exponent. -/
def expTail (l : List Char) : Option Int :=
  match l with
  | [] => some 0
  | c :: rest =>
    if c = 'e' ∨ c = 'E' then
      match rest with
      | [] => none
      | c2 :: rest2 =>
        if c2 = '+' then
          (if rest2.dropWhile Char.isDigit = [] ∧ rest2 ≠ [] then
             some (digitsToNat rest2 : Int)
           else none)
        else if c2 = '-' then
          (if rest2.dropWhile Char.isDigit = [] ∧ rest2 ≠ [] then
             some (-(digitsToNat rest2 : Int))
           else none)
        else
          (if rest.dropWhile Char.isDigit = [] then
             some (digitsToNat rest : Int)
           else none)
    else none

/-- Mantissa/exponent of an unsigned decimal literal, split at the leading
digit run `ip` with remainder `r1`: `digits [. digits?] exp?` or
`. digits exp?`; `none` when the input is not of this shape. -/
def decMantissaCore (ip r1 : List Char) : Option (Nat × Int) :=
  match r1 with
  | '.' :: r2 =>
    if ip = [] ∧ r2.takeWhile Char.isDigit = [] then none
    else
      match expTail (r2.dropWhile Char.isDigit) with
      | some ex => some (digitsToNat (ip ++ r2.takeWhile Char.isDigit),
          ex - ((r2.takeWhile Char.isDigit).length : Int))
      | none => none
  | _ =>
    if ip = [] then none
    else
      match expTail r1 with
      | some ex => some (digitsToNat ip, ex)
      | none => none

def decMantissa (l : List Char) : Option (Nat × Int) :=
  decMantissaCore (l.takeWhile Char.isDigit) (l.dropWhile Char.isDigit)

/-- Parse of `StrDecimalLiteral` after the optional sign: the literal
`Infinity`, or a decimal mantissa/exponent form rounded to a double. -/
def signedDecimal (neg : Bool) (l : List Char) : JsNum :=
  if l = "Infinity".data then JsNum.inf neg
  else
    match decMantissa l with
    | some (m, ex) => sciToDouble neg m ex
    | none => JsNum.nan

/-- JS `Number(s)` on a string (`ToNumber`): trim `StrWhiteSpace`, an empty
remainder is `+0`, `0x`/`0o`/`0b` introduce unsigned non-decimal integer
literals, and everything else must be an optionally signed decimal literal
or `Infinity`; any other input is NaN. -/
def jsNumber (s : String) : JsNum :=
  match trimWs s.data with
  | [] => JsNum.fin false 0 0
  | c :: rest =>
    if c = '+' then signedDecimal false rest
    else if c = '-' then signedDecimal true rest
    else if c = '0' then
      match rest with
      | x :: rest2 =>
        if x = 'x' ∨ x = 'X' then radixNumber 16 rest2
        else if x = 'o' ∨ x = 'O' then radixNumber 8 rest2
        else if x = 'b' ∨ x = 'B' then radixNumber 2 rest2
        else signedDecimal false (c :: rest)
      | [] => signedDecimal false [c]
    else signedDecimal false (c :: rest)

/-- IEEE `<` on doubles: false whenever a NaN is involved, infinities by
sign, finite values by cross-multiplied exact comparison (so `-0 < 0` is
false). -/
def jsLt : JsNum → JsNum → Bool
  | JsNum.nan, _ => false
  | _, JsNum.nan => false
  | JsNum.inf n1, JsNum.inf n2 => n1 && !n2
  | JsNum.inf n1, JsNum.fin _ _ _ => n1
  | JsNum.fin _ _ _, JsNum.inf n2 => !n2
  | JsNum.fin n1 a1 d1, JsNum.fin n2 a2 d2 =>
    decide ((if n1 then -(a1 : Int) else (a1 : Int)) * ((1 <<< d2 : Nat) : Int)
      < (if n2 then -(a2 : Int) else (a2 : Int)) * ((1 <<< d1 : Nat) : Int))

def jsGt (a b : JsNum) : Bool := jsLt b a

/-- JS `x || 0` on a number-or-undefined: NaN, `±0` and `undefined` (the
out-of-range index read, modelled by the NaN default below) give `0`. -/
def jsOr0 : JsNum → JsNum
  | JsNum.nan => JsNum.fin false 0 0
  | JsNum.fin _ 0 _ => JsNum.fin false 0 0
  | x => x

/-- The index-aligned component pairs visited by the comparison loop
(cloud-manager.ts:162-167): positions up to the longer list, each side read
as `parts[i] || 0`. -/
def versionPairs (lp rp : List JsNum) : List (JsNum × JsNum) :=
  (List.range (max lp.length rp.length)).map
    (fun i => (jsOr0 (lp.getD i JsNum.nan), jsOr0 (rp.getD i JsNum.nan)))

/-- The comparison loop body: the first pair with `v2 > v1` or `v2 < v1`
decides, `false` when no pair does. -/
def firstDiffNewer : List (JsNum × JsNum) → Bool
  | [] => false
  | (v1, v2) :: rest =>
    if jsGt v2 v1 then true else if jsLt v2 v1 then false else firstDiffNewer rest

/-- `CloudManager.isUpdateAvailable` (cloud-manager.ts:143-169). -/
def isUpdateAvailable (localVersion remoteVersion : String) : Bool :=
  if localVersion = "" then true
  else if isDigitString localVersion && isDigitString remoteVersion then
    jsGt (jsNumber remoteVersion) (jsNumber localVersion)
  else
    let localParts := (splitComponents localVersion.data).map
      (fun l => jsNumber l.asString)
    let remoteParts := (splitComponents remoteVersion.data).map
      (fun l => jsNumber l.asString)
    firstDiffNewer (versionPairs localParts remoteParts)

end CloudManager

namespace DictionaryStore

/-- The vault adapter as a map from the dictionary file path — determined by
`(pluginId, locale)` via `getDictionaryFilePath` — to the stored document
(serialisation by `JSON.stringify`/`JSON.parse` round-trips documents and is
left implicit). -/
abbrev FileStore := List ((String × String) × Dict)

/-- The stamping step of `saveDictionary` (src/unnamed/part_001):
`if (dict.$meta) { dict.$meta.dictVersion = Date.now().toString(); }`.
`$meta` is typed `DictionaryMeta`, an object; when absent (or `null`, which
is falsy) nothing is stamped. -/
def stampDictVersion (dict : Dict) (now : String) : Dict :=
  match mapGet dict "$meta" with
  | some (JsonVal.obj ml) =>
    mapSet dict "$meta" (JsonVal.obj (mapSet ml "dictVersion" (JsonVal.str now)))
  | _ => dict

/-- `DictionaryStore.saveDictionary` (src/unnamed/part_001:215-239): ensure
directories (no effect on the file map), stamp `$meta.dictVersion` with the
current time, write with overwrite semantics. -/
def saveDictionary (fs : FileStore) (pluginId locale : String) (dict : Dict)
    (now : String) : FileStore :=
  mapSet fs (pluginId, locale) (stampDictVersion dict now)

/-- `DictionaryStore.loadDictionary` (src/unnamed/part_001:257-270): `null`
when the file is absent, the parsed document otherwise. -/
def loadDictionary (fs : FileStore) (pluginId locale : String) : Option Dict :=
  mapGet fs (pluginId, locale)

/-- The `$meta.dictVersion` field of a document, when `$meta` is an object. -/
def metaDictVersion (d : Dict) : Option JsonVal :=
  match mapGet d "$meta" with
  | some (JsonVal.obj ml) => mapGet ml "dictVersion"
  | _ => none

end DictionaryStore

namespace ThemeExtractor

/-- `Math.imul` on unsigned 32-bit representatives: the low 32 bits of the
product (the signed JS result has the same bit pattern). -/
def imul (a b : Nat) : Nat := (a * b) % 4294967296

/-- The UTF-16 code units of one character, as read by `charCodeAt`. -/
def utf16Units (c : Char) : List Nat :=
  let n := c.toNat
  if n < 65536 then [n]
  else [55296 + (n - 65536) / 1024, 56320 + (n - 65536) % 1024]

/-- The UTF-16 code unit sequence of a string (`content.charCodeAt(i)` for
`i = 0 .. content.length - 1`). -/
def toUTF16 (s : String) : List Nat :=
  s.data.flatMap utf16Units

/-- One iteration of the mixing loop (theme-extractor.ts:10-13), on
unsigned 32-bit representatives (`^`, `Math.imul` and `>>>` all act on the
32-bit pattern, so the unsigned view is exact). -/
def hashStep (p : Nat × Nat) (ch : Nat) : Nat × Nat :=
  (imul (Nat.xor p.1 ch) 2654435761, imul (Nat.xor p.2 ch) 1597334677)

/-- Lowercase hex digits of `n` (`Number.prototype.toString(16)`), by fuel. -/
def toHexAux : Nat → Nat → List Char
  | 0, _ => []
  | _ + 1, 0 => []
  | fuel + 1, n => toHexAux fuel (n / 16) ++
      [if n % 16 < 10 then Char.ofNat (48 + n % 16) else Char.ofNat (87 + n % 16)]

/-- `n.toString(16)` for a non-negative integer. -/
def toHex (n : Nat) : String :=
  if n = 0 then "0" else (toHexAux n n).asString

/-- The avalanche step and packing of `computeHash` applied to the two
accumulators. -/
def finalize (p : Nat × Nat) : Nat :=
  let h1 := Nat.xor (imul (Nat.xor p.1 (p.1 / 65536)) 2246822507)
                    (imul (Nat.xor p.2 (p.2 / 8192)) 3266489909)
  let h2 := Nat.xor (imul (Nat.xor p.2 (p.2 / 65536)) 2246822507)
                    (imul (Nat.xor h1 (h1 / 8192)) 3266489909)
  4294967296 * (h2 % 2097152) + h1

/-- `ThemeExtractor.computeHash` (theme-extractor.ts:8-18). -/
def computeHash (content : String) : String :=
  toHex (finalize ((toUTF16 content).foldl hashStep (3735928559, 1103547991)))

end ThemeExtractor

/-! ## Association-list map lemmas -/

section MapLemmas

set_option linter.unusedSectionVars false

variable {α β : Type} [BEq α] [LawfulBEq α]

theorem mapGet_cons (p : α × β) (m : List (α × β)) (k : α) :
    mapGet (p :: m) k = if p.1 == k then some p.2 else mapGet m k := by
  by_cases h : p.1 == k
  · simp [mapGet, List.find?_cons_of_pos, h]
  · simp only [Bool.not_eq_true] at h
    simp [mapGet, List.find?_cons_of_neg, h]

theorem mapSet_nil (k : α) (v : β) : mapSet ([] : List (α × β)) k v = [(k, v)] := rfl

theorem mapSet_cons (p : α × β) (m : List (α × β)) (k : α) (v : β) :
    mapSet (p :: m) k v =
      if p.1 == k then (k, v) :: m.map (fun q => if q.1 == k then (k, v) else q)
      else p :: mapSet m k v := by
  by_cases h : p.1 == k
  · simp [mapSet, h]
  · simp only [Bool.not_eq_true] at h
    by_cases h2 : m.any (fun q => q.1 == k)
    · simp [mapSet, h, h2]
    · simp only [Bool.not_eq_true] at h2
      simp [mapSet, h, h2]

theorem mapGet_map_update_self (m : List (α × β)) (k : α) (v : β) :
    mapGet (m.map (fun q => if q.1 == k then (k, v) else q)) k =
      if mapHas m k then some v else none := by
  induction m with
  | nil => simp [mapGet, mapHas]
  | cons p rest ih =>
    by_cases h : p.1 == k
    · simp [mapGet_cons, mapHas, h]
    · simp only [Bool.not_eq_true] at h
      rw [List.map_cons]
      rw [show (if (p.1 == k) = true then (k, v) else p) = p by simp [h]]
      rw [mapGet_cons]
      simp only [h, Bool.false_eq_true, if_false]
      rw [ih]
      simp only [mapHas, List.any_cons, h, Bool.false_or]

theorem mapGet_map_update_ne (m : List (α × β)) (k k' : α) (v : β) (hne : ¬(k' = k)) :
    mapGet (m.map (fun q => if q.1 == k then (k, v) else q)) k' = mapGet m k' := by
  induction m with
  | nil => rfl
  | cons p rest ih =>
    by_cases h : p.1 == k
    · have hp : p.1 = k := by simpa using h
      have h1 : ¬((k : α) == k') = true := by
        simp only [beq_iff_eq]
        intro hkk
        exact hne hkk.symm
      have h2 : ¬(p.1 == k') = true := by
        rw [hp]
        exact h1
      simp only [Bool.not_eq_true] at h1 h2
      simp [mapGet_cons, h, h1, h2, ih]
    · simp only [Bool.not_eq_true] at h
      simp [mapGet_cons, h, ih]

theorem mapGet_append_single (m : List (α × β)) (k : α) (v : β)
    (h : mapHas m k = false) : mapGet (m ++ [(k, v)]) k = some v := by
  induction m with
  | nil => simp [mapGet_cons]
  | cons p rest ih =>
    simp only [mapHas, List.any_cons, Bool.or_eq_false_iff] at h
    simp only [List.cons_append, mapGet_cons, h.1, if_false]
    exact ih (by simp [mapHas, h.2])

theorem mapGet_append_single_ne (m : List (α × β)) (k k' : α) (v : β)
    (hne : ¬(k' = k)) : mapGet (m ++ [(k, v)]) k' = mapGet m k' := by
  induction m with
  | nil =>
    have h1 : ¬((k : α) == k') = true := by
      simp only [beq_iff_eq]
      intro hkk
      exact hne hkk.symm
    simp only [Bool.not_eq_true] at h1
    simp [mapGet_cons, mapGet, h1]
  | cons p rest ih =>
    by_cases h : p.1 == k'
    · simp [mapGet_cons, h]
    · simp only [Bool.not_eq_true] at h
      simp [mapGet_cons, h, ih]

theorem mapGet_mapSet_self (m : List (α × β)) (k : α) (v : β) :
    mapGet (mapSet m k v) k = some v := by
  unfold mapSet
  by_cases h : m.any (fun q => q.1 == k)
  · simp only [h, if_true]
    have := mapGet_map_update_self m k v
    rw [this]
    simp [mapHas, h]
  · simp only [Bool.not_eq_true] at h
    simp only [h, Bool.false_eq_true, if_false]
    exact mapGet_append_single m k v (by simp [mapHas, h])

theorem mapGet_mapSet_ne (m : List (α × β)) (k k' : α) (v : β) (hne : ¬(k' = k)) :
    mapGet (mapSet m k v) k' = mapGet m k' := by
  unfold mapSet
  by_cases h : m.any (fun q => q.1 == k)
  · simp only [h, if_true]
    exact mapGet_map_update_ne m k k' v hne
  · simp only [Bool.not_eq_true] at h
    simp only [h, Bool.false_eq_true, if_false]
    exact mapGet_append_single_ne m k k' v hne

theorem mapHas_eq_keys (m : List (α × β)) (k : α) :
    mapHas m k = (m.map (fun p => p.1)).any (fun x => x == k) := by
  induction m with
  | nil => rfl
  | cons p rest ih =>
    simp only [mapHas, List.any_cons, List.map_cons] at *
    rw [← ih]

theorem keys_mapSet_of_mapHas (m : List (α × β)) (k : α) (v : β)
    (h : mapHas m k = true) :
    (mapSet m k v).map (fun p => p.1) = m.map (fun p => p.1) := by
  unfold mapSet
  simp only [mapHas] at h
  simp only [h, if_true, List.map_map]
  apply List.map_congr_left
  intro q _
  by_cases hq : q.1 == k
  · have : q.1 = k := by simpa using hq
    simp [Function.comp, hq, this]
  · simp only [Bool.not_eq_true] at hq
    simp [Function.comp, hq]

theorem mapHas_mapSet (m : List (α × β)) (k k' : α) (v : β) :
    mapHas (mapSet m k v) k' = (mapHas m k' || k == k') := by
  by_cases h : mapHas m k = true
  · rw [mapHas_eq_keys (mapSet m k v) k', keys_mapSet_of_mapHas m k v h,
      ← mapHas_eq_keys]
    by_cases hk : (k == k') = true
    · have hkk : k = k' := by simpa using hk
      subst hkk
      simp [h, hk]
    · simp only [Bool.not_eq_true] at hk
      simp [hk]
  · simp only [Bool.not_eq_true] at h
    have h' : m.any (fun q => q.1 == k) = false := by simpa [mapHas] using h
    unfold mapSet
    simp only [h', Bool.false_eq_true, if_false, mapHas, List.any_append, List.any_cons,
      List.any_nil, Bool.or_false]

theorem mapHas_mapDelete_ne (m : List (α × β)) (k k' : α) (hne : ¬(k' = k)) :
    mapHas (mapDelete m k) k' = mapHas m k' := by
  induction m with
  | nil => rfl
  | cons p rest ih =>
    by_cases h : p.1 == k
    · have hp : p.1 = k := by simpa using h
      have h2 : (p.1 == k') = false := by
        simp only [beq_eq_false_iff_ne, ne_eq, hp]
        intro hkk
        exact hne hkk.symm
      rw [mapDelete, List.filter_cons]
      simp only [h, Bool.not_true, Bool.false_eq_true, if_false]
      rw [show rest.filter (fun p => !(p.1 == k)) = mapDelete rest k from rfl, ih]
      simp [mapHas, h2]
    · simp only [Bool.not_eq_true] at h
      rw [mapDelete, List.filter_cons]
      simp only [h, Bool.not_false, if_true]
      simp only [mapHas, List.any_cons]
      rw [show (rest.filter (fun p => !(p.1 == k))).any (fun p => p.1 == k') =
        mapHas (mapDelete rest k) k' from rfl, ih]
      rfl

theorem mapGet_isSome_of_mem_keys (m : List (α × β)) (k : α)
    (h : k ∈ m.map (fun p => p.1)) : ∃ v, mapGet m k = some v := by
  induction m with
  | nil => simp at h
  | cons p rest ih =>
    simp only [List.map_cons, List.mem_cons] at h
    by_cases hp : p.1 == k
    · exact ⟨p.2, by simp [mapGet_cons, hp]⟩
    · have hne : ¬(p.1 = k) := by simpa using hp
      simp only [Bool.not_eq_true] at hp
      rcases h with h | h
      · exact absurd h.symm hne
      · obtain ⟨v, hv⟩ := ih h
        exact ⟨v, by simp [mapGet_cons, hp, hv]⟩

theorem mem_keys_of_mapGet_some (m : List (α × β)) (k : α) (v : β)
    (h : mapGet m k = some v) : k ∈ m.map (fun p => p.1) := by
  induction m with
  | nil => simp [mapGet] at h
  | cons p rest ih =>
    rw [mapGet_cons] at h
    by_cases hp : p.1 == k
    · have : p.1 = k := by simpa using hp
      simp [this]
    · simp only [Bool.not_eq_true] at hp
      simp only [hp, Bool.false_eq_true, if_false] at h
      simp [ih h]

end MapLemmas

/-! ## Translator state lemmas -/

theorem mapHas_iff_mem_keys {α β : Type} [BEq α] [LawfulBEq α]
    (m : List (α × β)) (k : α) :
    mapHas m k = true ↔ k ∈ m.map (fun p => p.1) := by
  rw [mapHas_eq_keys]
  simp [List.any_eq_true]

/-- The three possible outcomes of `loadDictionary`: a thrown validation
exception, a rejected load (state untouched), or a stored overlay. -/
theorem loadDictionary_cases (tr : I18nTranslator) (locale : String) (dict : JsonVal) :
    (∃ e, tr.loadDictionary locale dict = .error e) ∨
    (∃ r, tr.loadDictionary locale dict = .ok (r, tr)) ∨
    (∃ r, tr.loadDictionary locale dict =
        .ok (r, { tr with dictionaries := mapSet tr.dictionaries locale (toEntries dict) })) := by
  unfold I18nTranslator.loadDictionary
  cases h : tr.validateDictionary dict with
  | error e => exact Or.inl ⟨e, rfl⟩
  | ok result =>
    by_cases hv : result.valid
    · right; right; exact ⟨result, by simp [hv]⟩
    · right; left
      refine ⟨result, ?_⟩
      simp only [Bool.not_eq_true] at hv
      simp [hv]

/-- Every operation preserves `baseLocale` and keeps the base-locale entry
in the dictionary map. -/
theorem applyOp_inv (tr : I18nTranslator) (op : TranslatorOp)
    (h1 : mapHas tr.dictionaries tr.baseLocale = true) :
    mapHas (applyOp tr op).dictionaries (applyOp tr op).baseLocale = true ∧
    (applyOp tr op).baseLocale = tr.baseLocale := by
  cases op with
  | load locale dict =>
    rcases loadDictionary_cases tr locale dict with ⟨e, he⟩ | ⟨r, hr⟩ | ⟨r, hr⟩
    · simp [applyOp, he, h1]
    · simp [applyOp, hr, h1]
    · have happ : applyOp tr (TranslatorOp.load locale dict) =
          { tr with dictionaries := mapSet tr.dictionaries locale (toEntries dict) } := by
        simp [applyOp, hr]
      rw [happ]
      refine ⟨?_, rfl⟩
      show mapHas (mapSet tr.dictionaries locale (toEntries dict)) tr.baseLocale = true
      rw [mapHas_mapSet]
      simp [h1]
  | unload locale =>
    show mapHas (tr.unloadDictionary locale).dictionaries
        (tr.unloadDictionary locale).baseLocale = true ∧
      (tr.unloadDictionary locale).baseLocale = tr.baseLocale
    unfold I18nTranslator.unloadDictionary
    by_cases hb : locale = tr.baseLocale
    · simp [hb, h1]
    · by_cases hh : mapHas tr.dictionaries locale
      · have hdel : mapHas (mapDelete tr.dictionaries locale) tr.baseLocale = true := by
          rw [mapHas_mapDelete_ne tr.dictionaries locale tr.baseLocale
            (fun he => hb he.symm)]
          exact h1
        by_cases hc : tr.currentLocale = locale
        · simp [hb, hh, hc, hdel]
        · simp [hb, hh, hc, hdel]
      · simp only [Bool.not_eq_true] at hh
        simp [hb, hh, h1]
  | setLoc locale =>
    exact ⟨h1, rfl⟩

theorem applyOps_inv (ops : List TranslatorOp) (tr : I18nTranslator)
    (h1 : mapHas tr.dictionaries tr.baseLocale = true) :
    mapHas (applyOps tr ops).dictionaries (applyOps tr ops).baseLocale = true ∧
    (applyOps tr ops).baseLocale = tr.baseLocale := by
  induction ops generalizing tr with
  | nil => exact ⟨h1, rfl⟩
  | cons op rest ih =>
    have hfold : applyOps tr (op :: rest) = applyOps (applyOp tr op) rest := rfl
    have hstep := applyOp_inv tr op h1
    have hrec := ih (applyOp tr op) hstep.1
    rw [hfold]
    refine ⟨hrec.1, ?_⟩
    rw [hrec.2, hstep.2]

/-- C3: for every translator built by the constructor and every sequence of
`loadDictionary`/`unloadDictionary`/`setLocale` operations, the base-locale
entry is never removed: `getLoadedLocales` always contains `baseLocale`;
moreover `unloadDictionary baseLocale` is a no-op on the whole state, and
unloading a loaded non-base locale that is current resets `currentLocale`
to `baseLocale`. -/
theorem base_locale_never_removed :
    (∀ (o : TranslatorOptions) (ops : List TranslatorOp),
       (applyOps (createTranslator o) ops).baseLocale = o.baseLocale ∧
       (applyOps (createTranslator o) ops).baseLocale
         ∈ I18nTranslator.getLoadedLocales (applyOps (createTranslator o) ops)) ∧
    (∀ tr : I18nTranslator, tr.unloadDictionary tr.baseLocale = tr) ∧
    (∀ (tr : I18nTranslator) (locale : String),
       locale ≠ tr.baseLocale → mapHas tr.dictionaries locale = true →
       tr.currentLocale = locale →
       (tr.unloadDictionary locale).currentLocale = tr.baseLocale) := by
  refine ⟨?_, ?_, ?_⟩
  · intro o ops
    have hinit : mapHas (createTranslator o).dictionaries
        (createTranslator o).baseLocale = true := by
      show mapHas (mapSet [] o.baseLocale o.baseDictionary) o.baseLocale = true
      simp [mapSet, mapHas]
    have h := applyOps_inv ops (createTranslator o) hinit
    refine ⟨h.2, ?_⟩
    exact (mapHas_iff_mem_keys _ _).mp h.1
  · intro tr
    unfold I18nTranslator.unloadDictionary
    simp
  · intro tr locale hb hh hc
    unfold I18nTranslator.unloadDictionary
    simp [fun he => hb he, hh, hc]

/-- A sample translator with a loaded German overlay, current locale `de`. -/
def sampleTrDe : I18nTranslator :=
  { pluginId := "sample-plugin", baseLocale := "en", currentLocale := "de",
    baseDictionary := [("hello", JsonVal.str "Hello")],
    dictionaries := [("en", [("hello", JsonVal.str "Hello")]),
                     ("de", [("hello", JsonVal.str "Hallo")])] }

theorem base_locale_never_removed_witness :
    ((applyOps (createTranslator
        { pluginId := "p", baseLocale := "en", baseDictionary := [],
          currentLocale := none }) [TranslatorOp.unload "en"]).baseLocale
      ∈ I18nTranslator.getLoadedLocales (applyOps (createTranslator
        { pluginId := "p", baseLocale := "en", baseDictionary := [],
          currentLocale := none }) [TranslatorOp.unload "en"])) ∧
    ("de" ≠ sampleTrDe.baseLocale ∧ mapHas sampleTrDe.dictionaries "de" = true ∧
      sampleTrDe.currentLocale = "de" ∧
      (sampleTrDe.unloadDictionary "de").currentLocale = sampleTrDe.baseLocale) :=
  ⟨(base_locale_never_removed.1
      { pluginId := "p", baseLocale := "en", baseDictionary := [],
        currentLocale := none } [TranslatorOp.unload "en"]).2,
   by decide, rfl, rfl,
   base_locale_never_removed.2.2 sampleTrDe "de" (by decide) rfl rfl⟩

/-- A sample translator whose current locale `de` has no loaded overlay. -/
def sampleTr : I18nTranslator := createTranslator
  { pluginId := "sample-plugin", baseLocale := "en",
    baseDictionary := [("hello", JsonVal.str "Hello")],
    currentLocale := some "de" }

/-- C10: unloading a locale that has no loaded overlay leaves the whole
translator state unchanged; in particular `currentLocale` is not reset to
`baseLocale` even when the unloaded locale is the current one. -/
theorem unload_absent_locale_noop (tr : I18nTranslator) (locale : String)
    (h : mapHas tr.dictionaries locale = false) :
    tr.unloadDictionary locale = tr ∧
    (tr.unloadDictionary locale).currentLocale = tr.currentLocale := by
  have he : tr.unloadDictionary locale = tr := by
    unfold I18nTranslator.unloadDictionary
    by_cases hb : locale = tr.baseLocale
    · simp [hb]
    · simp [hb, h]
  exact ⟨he, by rw [he]⟩

theorem unload_absent_locale_noop_witness :
    mapHas sampleTr.dictionaries "de" = false ∧
      sampleTr.currentLocale = "de" ∧
      sampleTr.unloadDictionary "de" = sampleTr :=
  ⟨rfl, rfl, (unload_absent_locale_noop sampleTr "de" rfl).1⟩

/-! ## Hash, store and validation-exception theorems -/

/-- C9: the content fingerprint is a deterministic pure function of the input
text: it factors through the UTF-16 code-unit sequence alone, so identical
text yields identical output on every run; two fixed sample values are pinned
to witness reproducibility. -/
theorem computeHash_deterministic :
    (∀ s1 s2 : String, ThemeExtractor.toUTF16 s1 = ThemeExtractor.toUTF16 s2 →
      ThemeExtractor.computeHash s1 = ThemeExtractor.computeHash s2) ∧
    ThemeExtractor.computeHash "" = "bdcb81aee8d83" ∧
    ThemeExtractor.computeHash "abc" = "11f9f91ac18c8d" := by
  refine ⟨?_, ?_, ?_⟩
  · intro s1 s2 h
    unfold ThemeExtractor.computeHash
    rw [h]
  · rfl
  · rfl

theorem computeHash_deterministic_witness :
    ThemeExtractor.computeHash "@settings" = ThemeExtractor.computeHash "@settings" :=
  computeHash_deterministic.1 "@settings" "@settings" rfl

/-- C8 (amended): `save` followed by `load` returns exactly the stored
document; when the document carries a `$meta` object its `dictVersion` is
stamped with the current time (and nothing else changes); a document without
`$meta` is written unchanged. -/
theorem save_load_round_trip :
    ∀ (fs : DictionaryStore.FileStore) (ns loc : String) (d : Dict) (now : String),
      DictionaryStore.loadDictionary (DictionaryStore.saveDictionary fs ns loc d now) ns loc
        = some (DictionaryStore.stampDictVersion d now) ∧
      (∀ ml, mapGet d "$meta" = some (JsonVal.obj ml) →
        DictionaryStore.stampDictVersion d now
          = mapSet d "$meta" (JsonVal.obj (mapSet ml "dictVersion" (JsonVal.str now))) ∧
        DictionaryStore.metaDictVersion (DictionaryStore.stampDictVersion d now)
          = some (JsonVal.str now)) ∧
      (mapGet d "$meta" = none → DictionaryStore.stampDictVersion d now = d) := by
  intro fs ns loc d now
  refine ⟨?_, ?_, ?_⟩
  · unfold DictionaryStore.loadDictionary DictionaryStore.saveDictionary
    exact mapGet_mapSet_self fs (ns, loc) _
  · intro ml hml
    unfold DictionaryStore.stampDictVersion
    rw [hml]
    refine ⟨rfl, ?_⟩
    unfold DictionaryStore.metaDictVersion
    rw [mapGet_mapSet_self]
    exact mapGet_mapSet_self ml "dictVersion" _
  · intro h
    unfold DictionaryStore.stampDictVersion
    rw [h]

theorem save_load_round_trip_witness :
    DictionaryStore.loadDictionary
        (DictionaryStore.saveDictionary [] "ns" "fr"
          [("$meta", JsonVal.obj [("locale", JsonVal.str "fr")]),
           ("hello", JsonVal.str "Bonjour")] "1700000000000") "ns" "fr"
      = some (DictionaryStore.stampDictVersion
          [("$meta", JsonVal.obj [("locale", JsonVal.str "fr")]),
           ("hello", JsonVal.str "Bonjour")] "1700000000000") ∧
    DictionaryStore.metaDictVersion (DictionaryStore.stampDictVersion
          [("$meta", JsonVal.obj [("locale", JsonVal.str "fr")]),
           ("hello", JsonVal.str "Bonjour")] "1700000000000")
      = some (JsonVal.str "1700000000000") :=
  ⟨(save_load_round_trip [] "ns" "fr"
      [("$meta", JsonVal.obj [("locale", JsonVal.str "fr")]),
       ("hello", JsonVal.str "Bonjour")] "1700000000000").1,
   ((save_load_round_trip [] "ns" "fr"
      [("$meta", JsonVal.obj [("locale", JsonVal.str "fr")]),
       ("hello", JsonVal.str "Bonjour")] "1700000000000").2.1
      [("locale", JsonVal.str "fr")] rfl).2⟩

/-- C8 counterexample: a document without `$meta` is not stamped at all —
after `save` + `load` its `$meta.dictVersion` is absent, not the current
time, refuting "for every dictionary document D, save stamps
$meta.dictVersion to the current time". -/
theorem save_no_meta_counterexample :
    DictionaryStore.loadDictionary
        (DictionaryStore.saveDictionary [] "ns" "fr" [("a", JsonVal.str "x")] "1700000000000")
        "ns" "fr" = some [("a", JsonVal.str "x")] ∧
    DictionaryStore.metaDictVersion [("a", JsonVal.str "x")]
      ≠ some (JsonVal.str "1700000000000") := by
  constructor
  · rfl
  · intro h
    rw [show DictionaryStore.metaDictVersion [("a", JsonVal.str "x")] = none from rfl] at h
    exact Option.noConfusion h

/-- C5 (code bug): `validateDictionary` does not return a structured result
for every payload — a `$meta: null` payload throws: `typeof null` is
`'object'`, so the code falls into the else branch and reads `meta.locale`
on `null`. -/
theorem validate_null_meta_throws :
    sampleTr.validateDictionary
        (JsonVal.obj [("$meta", JsonVal.null), ("hello", JsonVal.str "Bonjour")])
      = Except.error "TypeError: Cannot read properties of null (reading locale)" ∧
    (sampleTr.validateDictionary
        (JsonVal.obj [("$meta", JsonVal.null), ("hello", JsonVal.str "Bonjour")])).isOk
      = false :=
  ⟨rfl, rfl⟩

theorem asString_append (l1 l2 : List Char) :
    (l1 ++ l2).asString = l1.asString ++ l2.asString := rfl

theorem asString_data (l : List Char) : (l.asString).data = l := rfl

theorem str_data_ext (s t : String) (h : s.data = t.data) : s = t := by
  cases s
  cases t
  cases h
  rfl

/-! ## Version-comparison theorems -/

namespace CloudManager

/-- The `i`-th dot-separated component of a version string read as a decimal
integer, missing components padded with `0`. -/
def nthComp (s : String) (i : Nat) : Nat :=
  ((splitComponents s.data).map digitsToNat).getD i 0

/-- Pairing of two `Nat` component lists position by position, up to the
longer list, missing entries read as `0`: the integer-level counterpart of
`versionPairs`. -/
def natPairs (lp rp : List Nat) : List (Nat × Nat) :=
  (List.range (max lp.length rp.length)).map (fun i => (lp.getD i 0, rp.getD i 0))

/-- First-difference comparison on integer pairs: the integer-level
counterpart of `firstDiffNewer`. -/
def natFirstDiff : List (Nat × Nat) → Bool
  | [] => false
  | (v1, v2) :: rest =>
    if v2 > v1 then true else if v2 < v1 then false else natFirstDiff rest

theorem natFirstDiff_iff (ps : List (Nat × Nat)) :
    natFirstDiff ps = true ↔
      ∃ i, (∀ j, j < i → (ps.getD j (0, 0)).1 = (ps.getD j (0, 0)).2) ∧
        (ps.getD i (0, 0)).1 < (ps.getD i (0, 0)).2 := by
  induction ps with
  | nil =>
    simp only [natFirstDiff, List.getD_nil, Bool.false_eq_true, false_iff]
    rintro ⟨i, -, hlt⟩
    exact absurd hlt (by omega)
  | cons p rest ih =>
    obtain ⟨v1, v2⟩ := p
    by_cases h1 : v1 < v2
    · simp only [natFirstDiff, h1, if_true, true_iff]
      exact ⟨0, fun j hj => absurd hj (by omega), by simpa using h1⟩
    · by_cases h2 : v2 < v1
      · simp only [natFirstDiff, gt_iff_lt, h1, if_false, h2, if_true,
          Bool.false_eq_true, false_iff]
        rintro ⟨i, hpre, hlt⟩
        cases i with
        | zero => exact h1 (by simpa using hlt)
        | succ i' =>
          have := hpre 0 (by omega)
          simp only [List.getD_cons_zero] at this
          omega
      · have heq : v1 = v2 := by omega
        have hred : natFirstDiff ((v1, v2) :: rest) = natFirstDiff rest := by
          simp only [natFirstDiff, gt_iff_lt, h1, if_false, h2]
        rw [hred, ih]
        constructor
        · rintro ⟨i, hpre, hlt⟩
          refine ⟨i + 1, ?_, by simpa using hlt⟩
          intro j hj
          cases j with
          | zero => simpa using heq
          | succ j' =>
            have := hpre j' (by omega)
            simpa using this
        · rintro ⟨i, hpre, hlt⟩
          cases i with
          | zero => exact absurd (by simpa using hlt) h1
          | succ i' =>
            refine ⟨i', ?_, by simpa using hlt⟩
            intro j hj
            have := hpre (j + 1) (by omega)
            simpa using this

theorem natPairs_getD (lp rp : List Nat) (i : Nat) :
    (natPairs lp rp).getD i (0, 0) = (lp.getD i 0, rp.getD i 0) := by
  unfold natPairs
  by_cases h : i < max lp.length rp.length
  · rw [List.getD_eq_getElem?_getD, List.getElem?_map, List.getElem?_range h]
    rfl
  · push_neg at h
    have hl : lp.length ≤ i := le_trans (le_max_left _ _) h
    have hr : rp.length ≤ i := le_trans (le_max_right _ _) h
    rw [List.getD_eq_getElem?_getD, List.getElem?_map, List.getElem?_eq_none
        (by simpa using h)]
    rw [List.getD_eq_getElem?_getD, List.getElem?_eq_none hl,
      List.getD_eq_getElem?_getD, List.getElem?_eq_none hr]
    rfl

theorem isDigit_ranges (c : Char) (hc : c.isDigit = true) :
    48 ≤ c.toNat ∧ c.toNat ≤ 57 := by
  simp [Char.isDigit] at hc
  exact ⟨hc.1, hc.2⟩

theorem jsWhitespace_digit (c : Char) (hc : c.isDigit = true) :
    jsWhitespace c = false := by
  obtain ⟨h1, h2⟩ := isDigit_ranges c hc
  unfold jsWhitespace
  simp only [decide_eq_false_iff_not, List.mem_cons, List.not_mem_nil, or_false]
  omega

theorem dropWhile_all_false (p : Char → Bool) (l : List Char)
    (h : ∀ c ∈ l, p c = false) : l.dropWhile p = l := by
  cases l with
  | nil => rfl
  | cons c cs =>
    have hc : p c = false := h c (by simp)
    simp [List.dropWhile, hc]

theorem trimWs_digits (l : List Char) (hd : l.all Char.isDigit = true) :
    trimWs l = l := by
  have hws : ∀ c ∈ l, jsWhitespace c = false := fun c hc =>
    jsWhitespace_digit c (List.all_eq_true.mp hd c hc)
  unfold trimWs
  rw [dropWhile_all_false _ l hws,
    dropWhile_all_false _ l.reverse (fun c hc => hws c (List.mem_reverse.mp hc)),
    List.reverse_reverse]

theorem takeWhile_all_true (p : Char → Bool) (l : List Char)
    (h : ∀ c ∈ l, p c = true) : l.takeWhile p = l := by
  induction l with
  | nil => rfl
  | cons c cs ih =>
    have hc : p c = true := h c (by simp)
    simp [List.takeWhile, hc, ih (fun x hx => h x (by simp [hx]))]

theorem dropWhile_all_true (p : Char → Bool) (l : List Char)
    (h : ∀ c ∈ l, p c = true) : l.dropWhile p = [] := by
  induction l with
  | nil => rfl
  | cons c cs ih =>
    have hc : p c = true := h c (by simp)
    simp [List.dropWhile, hc, ih (fun x hx => h x (by simp [hx]))]

theorem bitLenAux_zero (fuel : Nat) : bitLenAux fuel 0 = 0 := by
  cases fuel <;> rfl

theorem bitLenAux_spec : ∀ (fuel n : Nat), 1 ≤ n → n ≤ fuel →
    2 ^ (bitLenAux fuel n - 1) ≤ n ∧ n < 2 ^ bitLenAux fuel n := by
  intro fuel
  induction fuel with
  | zero =>
    intro n h1 h2
    exfalso
    omega
  | succ f ih =>
    intro n h1 h2
    have hn0 : ¬(n = 0) := by omega
    have hred : bitLenAux (f + 1) n = bitLenAux f (n / 2) + 1 := by
      simp only [bitLenAux]
      rw [if_neg hn0]
    rw [hred]
    by_cases hn1 : n = 1
    · subst hn1
      rw [show (1 : Nat) / 2 = 0 from rfl, bitLenAux_zero]
      norm_num
    · have hd1 : 1 ≤ n / 2 := by omega
      have hdf : n / 2 ≤ f := by omega
      obtain ⟨hlow, hhigh⟩ := ih (n / 2) hd1 hdf
      set b := bitLenAux f (n / 2) with hb
      have hb1 : 1 ≤ b := by
        rcases Nat.eq_zero_or_pos b with h | h
        · rw [h, pow_zero] at hhigh
          omega
        · exact h
      constructor
      · have h2p : 2 ^ (b + 1 - 1) = 2 * 2 ^ (b - 1) := by
          rw [Nat.add_sub_cancel]
          calc 2 ^ b = 2 ^ (b - 1 + 1) := by congr 1; omega
            _ = 2 ^ (b - 1) * 2 := pow_succ 2 (b - 1)
            _ = 2 * 2 ^ (b - 1) := by ring
        rw [h2p]
        omega
      · have h3p : 2 ^ (b + 1) = 2 * 2 ^ b := by
          rw [pow_succ]
          ring
        rw [h3p]
        omega

theorem bitLen_spec (n : Nat) (h : 1 ≤ n) :
    2 ^ (bitLen n - 1) ≤ n ∧ n < 2 ^ bitLen n :=
  bitLenAux_spec n n h (le_refl n)

theorem decDigitsAux_le : ∀ (fuel n k : Nat), n < 10 ^ k → n ≤ fuel →
    decDigitsAux fuel n ≤ k := by
  intro fuel
  induction fuel with
  | zero =>
    intro n k _ _
    simp [decDigitsAux]
  | succ f ih =>
    intro n k hnk hnf
    by_cases hn0 : n = 0
    · subst hn0
      simp [decDigitsAux]
    · have hred : decDigitsAux (f + 1) n = decDigitsAux f (n / 10) + 1 := by
        simp only [decDigitsAux]
        rw [if_neg hn0]
      rw [hred]
      have hk1 : 1 ≤ k := by
        rcases Nat.eq_zero_or_pos k with h | h
        · rw [h, pow_zero] at hnk
          omega
        · exact h
      have h10 : n / 10 < 10 ^ (k - 1) := by
        rw [Nat.div_lt_iff_lt_mul (by omega)]
        calc n < 10 ^ k := hnk
          _ = 10 ^ (k - 1) * 10 := by
            rw [← pow_succ]
            congr 1
            omega
      have := ih (n / 10) (k - 1) h10 (by omega)
      omega

theorem decDigits_le (n k : Nat) (h : n < 10 ^ k) : decDigits n ≤ k :=
  decDigitsAux_le n n k h (le_refl n)

theorem divRoundHalfEven_one (n : Nat) : divRoundHalfEven n 1 = n := by
  simp [divRoundHalfEven, Nat.mod_one, Nat.div_one]

theorem canonPow2_mul : ∀ (k a : Nat), canonPow2 (a * 2 ^ k) k = (a, 0) := by
  intro k
  induction k with
  | zero =>
    intro a
    simp [canonPow2]
  | succ k ih =>
    intro a
    have h2 : a * 2 ^ (k + 1) = (a * 2 ^ k) * 2 := by
      rw [pow_succ, mul_assoc]
    rw [h2]
    simp only [canonPow2]
    rw [if_pos (Nat.mul_mod_left _ 2), Nat.mul_div_cancel _ (by omega)]
    exact ih a

theorem bitLen_one_le (m : Nat) (h1 : 1 ≤ m) : 1 ≤ bitLen m := by
  obtain ⟨-, hhigh⟩ := bitLen_spec m h1
  rcases Nat.eq_zero_or_pos (bitLen m) with h | h
  · rw [h, pow_zero] at hhigh
    omega
  · exact h

theorem ratLog2_int (m : Nat) (h1 : 1 ≤ m) :
    ratLog2 m 1 = (bitLen m : Int) - 1 := by
  have hb1 : bitLen 1 = 1 := rfl
  have hB1 : 1 ≤ bitLen m := bitLen_one_le m h1
  have he0 : (0 : Int) ≤ (bitLen m : Int) - (bitLen 1 : Int) := by
    rw [hb1]
    omega
  have htn : ((bitLen m : Int) - (bitLen 1 : Int)).toNat = bitLen m - 1 := by
    rw [hb1]
    omega
  have hcmp : 1 <<< ((bitLen m : Int) - (bitLen 1 : Int)).toNat ≤ m := by
    rw [htn, Nat.one_shiftLeft]
    exact (bitLen_spec m h1).1
  simp only [ratLog2]
  rw [if_pos he0, if_pos hcmp, hb1]
  norm_num

theorem ratSignificand_int (m : Nat) (hB : bitLen m ≤ 53) :
    ratSignificand m 1 ((bitLen m : Int) - 1) = m <<< (53 - bitLen m) := by
  have hs : (0 : Int) ≤ 52 - ((bitLen m : Int) - 1) := by omega
  have htn : ((52 : Int) - ((bitLen m : Int) - 1)).toNat = 53 - bitLen m := by
    omega
  simp only [ratSignificand]
  rw [if_pos hs, htn, divRoundHalfEven_one]

theorem roundPosRat_int (m : Nat) (h1 : 1 ≤ m) (h53 : m < 2 ^ 53) :
    roundPosRat m 1 = some (m, 0) := by
  have hB1 : 1 ≤ bitLen m := bitLen_one_le m h1
  have hB53 : bitLen m ≤ 53 := by
    obtain ⟨hlow, -⟩ := bitLen_spec m h1
    by_contra hgt
    push_neg at hgt
    have hmono : (2 : Nat) ^ 53 ≤ 2 ^ (bitLen m - 1) :=
      Nat.pow_le_pow_right (by omega) (by omega)
    omega
  have hm0 : ¬(m = 0) := by omega
  simp only [roundPosRat]
  rw [if_neg hm0, ratLog2_int m h1,
    if_neg (show ¬((bitLen m : Int) - 1 < -1022) by omega),
    ratSignificand_int m hB53]
  by_cases hc : (52 : Int) ≤ (bitLen m : Int) - 1
  · have hB : bitLen m = 53 := by omega
    rw [if_pos hc]
    have htn0 : ((bitLen m : Int) - 1 - 52).toNat = 0 := by omega
    rw [htn0]
    have hv : m <<< (53 - bitLen m) <<< 0 = m := by
      rw [hB]
      simp [Nat.shiftLeft_zero]
    rw [hv]
    have hnof : ¬(1 <<< 1024 ≤ m) := by
      intro hge
      have hmono : (2 ^ 53 : Nat) ≤ 1 <<< 1024 := by decide
      exact absurd h53 (not_lt.mpr (le_trans hmono hge))
    rw [if_neg hnof]
  · rw [if_neg hc]
    have htn : ((52 : Int) - ((bitLen m : Int) - 1)).toNat = 53 - bitLen m := by
      omega
    rw [htn, Nat.shiftLeft_eq, canonPow2_mul]

theorem sciToDouble_nat (m : Nat) (h53 : m < 2 ^ 53) :
    sciToDouble false m 0 = JsNum.fin false m 0 := by
  by_cases hm0 : m = 0
  · subst hm0
    rfl
  · have hD : decDigits m ≤ 16 := decDigits_le m 16 (by
      calc m < 2 ^ 53 := h53
        _ < 10 ^ 16 := by norm_num)
    simp only [sciToDouble]
    rw [if_neg hm0,
      if_neg (show ¬((400 : Int) ≤ 0 + (decDigits m : Int)) by omega),
      if_neg (show ¬((0 : Int) + (decDigits m : Int) ≤ -400) by omega),
      if_pos (show (0 : Int) ≤ 0 from le_refl 0)]
    have harg : m * 10 ^ (0 : Int).toNat = m := by norm_num
    rw [harg, roundPosRat_int m (by omega) h53]

theorem signedDecimal_digits (l : List Char) (hne : l ≠ [])
    (hd : l.all Char.isDigit = true) (h53 : digitsToNat l < 2 ^ 53) :
    signedDecimal false l = JsNum.fin false (digitsToNat l) 0 := by
  have hdig : ∀ c ∈ l, Char.isDigit c = true := List.all_eq_true.mp hd
  have hInf : ¬(l = "Infinity".data) := by
    intro h
    rw [h] at hd
    exact absurd hd (by decide)
  have htake : l.takeWhile Char.isDigit = l := takeWhile_all_true _ l hdig
  have hdrop : l.dropWhile Char.isDigit = [] := dropWhile_all_true _ l hdig
  unfold signedDecimal
  rw [if_neg hInf]
  unfold decMantissa
  rw [htake, hdrop]
  have hcore : decMantissaCore l [] = some (digitsToNat l, 0) := by
    show (if l = [] then none
          else match expTail [] with
               | some ex => some (digitsToNat l, ex)
               | none => none) = some (digitsToNat l, 0)
    rw [if_neg hne]
    rfl
  rw [hcore]
  exact sciToDouble_nat (digitsToNat l) h53

theorem jsNumber_digits (l : List Char) (hd : l.all Char.isDigit = true)
    (h53 : digitsToNat l < 2 ^ 53) :
    jsNumber l.asString = JsNum.fin false (digitsToNat l) 0 := by
  cases l with
  | nil => rfl
  | cons c cs =>
    have hcdig : c.isDigit = true := List.all_eq_true.mp hd c (by simp)
    have htrim : trimWs ((c :: cs).asString).data = c :: cs := by
      rw [asString_data]
      exact trimWs_digits _ hd
    unfold jsNumber
    rw [htrim]
    clear htrim
    revert hd h53
    show (c :: cs).all Char.isDigit = true → digitsToNat (c :: cs) < 2 ^ 53 →
      ((if c = '+' then signedDecimal false cs
        else if c = '-' then signedDecimal true cs
        else if c = '0' then
          match cs with
          | x :: rest2 =>
            if x = 'x' ∨ x = 'X' then radixNumber 16 rest2
            else if x = 'o' ∨ x = 'O' then radixNumber 8 rest2
            else if x = 'b' ∨ x = 'B' then radixNumber 2 rest2
            else signedDecimal false (c :: cs)
          | [] => signedDecimal false [c]
        else signedDecimal false (c :: cs))
        = JsNum.fin false (digitsToNat (c :: cs)) 0)
    intro hd h53
    have hplus : ¬(c = '+') := fun h => absurd (h ▸ hcdig) (by decide)
    have hminus : ¬(c = '-') := fun h => absurd (h ▸ hcdig) (by decide)
    rw [if_neg hplus, if_neg hminus]
    by_cases hc0 : c = '0'
    · rw [if_pos hc0]
      cases cs with
      | nil =>
        subst hc0
        decide
      | cons x rest2 =>
        show (if x = 'x' ∨ x = 'X' then radixNumber 16 rest2
              else if x = 'o' ∨ x = 'O' then radixNumber 8 rest2
              else if x = 'b' ∨ x = 'B' then radixNumber 2 rest2
              else signedDecimal false (c :: x :: rest2))
            = JsNum.fin false (digitsToNat (c :: x :: rest2)) 0
        have hxdig : x.isDigit = true := List.all_eq_true.mp hd x (by simp)
        have hx1 : ¬(x = 'x' ∨ x = 'X') := by
          rintro (h | h) <;> exact absurd (h ▸ hxdig) (by decide)
        have hx2 : ¬(x = 'o' ∨ x = 'O') := by
          rintro (h | h) <;> exact absurd (h ▸ hxdig) (by decide)
        have hx3 : ¬(x = 'b' ∨ x = 'B') := by
          rintro (h | h) <;> exact absurd (h ▸ hxdig) (by decide)
        rw [if_neg hx1, if_neg hx2, if_neg hx3]
        exact signedDecimal_digits (c :: x :: rest2) (by simp) hd h53
    · rw [if_neg hc0]
      exact signedDecimal_digits (c :: cs) (by simp) hd h53

theorem jsOr0_fin0 (a : Nat) : jsOr0 (JsNum.fin false a 0) = JsNum.fin false a 0 := by
  cases a <;> rfl

theorem jsLt_fin0 (a b : Nat) :
    jsLt (JsNum.fin false a 0) (JsNum.fin false b 0) = decide (a < b) := by
  simp only [jsLt]
  rw [decide_eq_decide]
  have h1 : (1 <<< 0 : Nat) = 1 := rfl
  rw [h1]
  simp only [Bool.false_eq_true, if_false, Nat.cast_one, mul_one]
  omega

theorem getD_map_fin (l : List Nat) (i : Nat) :
    jsOr0 ((l.map (fun a => JsNum.fin false a 0)).getD i JsNum.nan)
      = JsNum.fin false (l.getD i 0) 0 := by
  rw [List.getD_eq_getElem?_getD, List.getElem?_map, List.getD_eq_getElem?_getD]
  cases h : l[i]? with
  | none => rfl
  | some a =>
    show jsOr0 (JsNum.fin false a 0) = JsNum.fin false a 0
    exact jsOr0_fin0 a

theorem versionPairs_map_fin (lp rp : List Nat) :
    versionPairs (lp.map (fun a => JsNum.fin false a 0))
        (rp.map (fun a => JsNum.fin false a 0))
      = (natPairs lp rp).map
          (fun p => (JsNum.fin false p.1 0, JsNum.fin false p.2 0)) := by
  unfold versionPairs natPairs
  rw [List.map_map]
  simp only [List.length_map]
  refine List.map_congr_left ?_
  intro i hi
  dsimp only
  rw [getD_map_fin, getD_map_fin]
  rfl

theorem firstDiffNewer_map_fin (ps : List (Nat × Nat)) :
    firstDiffNewer (ps.map (fun p => (JsNum.fin false p.1 0, JsNum.fin false p.2 0)))
      = natFirstDiff ps := by
  induction ps with
  | nil => rfl
  | cons p rest ih =>
    obtain ⟨a, b⟩ := p
    simp only [List.map_cons, firstDiffNewer, natFirstDiff, jsGt, jsLt_fin0, ih,
      decide_eq_true_eq, gt_iff_lt]

end CloudManager

/-- C7 (corrected): `isUpdateAvailable` follows the claimed rule wherever the
JS `Number()` doubles it actually compares are exact, i.e. on integer values
below `2^53`: an absent (empty) local version is always older; two pure digit
sequences whose values are below `2^53` are compared as integers; otherwise,
when every dot-separated component is a (possibly empty) digit run with value
below `2^53`, the zero-padded components are compared left-to-right and the
first unequal one decides — plus the three quoted instances.  (Above `2^53`
the doubles collapse, see the counterexample.) -/
theorem isNewer_rule :
    (∀ r : String, CloudManager.isUpdateAvailable "" r = true) ∧
    (∀ l r : String, l ≠ "" →
      CloudManager.isDigitString l = true → CloudManager.isDigitString r = true →
      CloudManager.digitsToNat l.data < 2 ^ 53 →
      CloudManager.digitsToNat r.data < 2 ^ 53 →
      (CloudManager.isUpdateAvailable l r = true ↔
        CloudManager.digitsToNat l.data < CloudManager.digitsToNat r.data)) ∧
    (∀ l r : String, l ≠ "" →
      ¬(CloudManager.isDigitString l = true ∧ CloudManager.isDigitString r = true) →
      (∀ comp ∈ CloudManager.splitComponents l.data,
        comp.all Char.isDigit = true ∧ CloudManager.digitsToNat comp < 2 ^ 53) →
      (∀ comp ∈ CloudManager.splitComponents r.data,
        comp.all Char.isDigit = true ∧ CloudManager.digitsToNat comp < 2 ^ 53) →
      (CloudManager.isUpdateAvailable l r = true ↔
        ∃ i, (∀ j, j < i → CloudManager.nthComp l j = CloudManager.nthComp r j) ∧
          CloudManager.nthComp l i < CloudManager.nthComp r i)) ∧
    CloudManager.isUpdateAvailable "5" "12" = true ∧
    CloudManager.isUpdateAvailable "1.2.0" "1.10.0" = true ∧
    CloudManager.isUpdateAvailable "" "1" = true := by
  refine ⟨?_, ?_, ?_, by decide, by decide, rfl⟩
  · intro r
    simp [CloudManager.isUpdateAvailable]
  · intro l r hl hdl hdr hbl hbr
    have hld : l.data.all Char.isDigit = true := by
      have h := hdl
      unfold CloudManager.isDigitString at h
      rw [Bool.and_eq_true] at h
      exact h.2
    have hrd : r.data.all Char.isDigit = true := by
      have h := hdr
      unfold CloudManager.isDigitString at h
      rw [Bool.and_eq_true] at h
      exact h.2
    have hls : l.data.asString = l := str_data_ext _ _ (asString_data l.data)
    have hrs : r.data.asString = r := str_data_ext _ _ (asString_data r.data)
    have hjl : CloudManager.jsNumber l
        = CloudManager.JsNum.fin false (CloudManager.digitsToNat l.data) 0 := by
      rw [← hls]
      exact CloudManager.jsNumber_digits l.data hld hbl
    have hjr : CloudManager.jsNumber r
        = CloudManager.JsNum.fin false (CloudManager.digitsToNat r.data) 0 := by
      rw [← hrs]
      exact CloudManager.jsNumber_digits r.data hrd hbr
    unfold CloudManager.isUpdateAvailable
    rw [if_neg hl, if_pos (show (CloudManager.isDigitString l
        && CloudManager.isDigitString r) = true by rw [hdl, hdr]; rfl)]
    show CloudManager.jsLt (CloudManager.jsNumber l) (CloudManager.jsNumber r)
        = true ↔ _
    rw [hjl, hjr, CloudManager.jsLt_fin0]
    exact decide_eq_true_iff
  · intro l r hl hnd hcl hcr
    have hb : (CloudManager.isDigitString l && CloudManager.isDigitString r)
        = false := by
      cases hdl : CloudManager.isDigitString l with
      | false => simp
      | true =>
        cases hdr : CloudManager.isDigitString r with
        | false => simp
        | true => exact absurd ⟨hdl, hdr⟩ hnd
    unfold CloudManager.isUpdateAvailable
    simp only [hl, if_false, hb, Bool.false_eq_true]
    have hml : (CloudManager.splitComponents l.data).map
          (fun x => CloudManager.jsNumber x.asString)
        = ((CloudManager.splitComponents l.data).map CloudManager.digitsToNat).map
            (fun a => CloudManager.JsNum.fin false a 0) := by
      rw [List.map_map]
      refine List.map_congr_left ?_
      intro comp hmem
      obtain ⟨hdig, hlt⟩ := hcl comp hmem
      exact CloudManager.jsNumber_digits comp hdig hlt
    have hmr : (CloudManager.splitComponents r.data).map
          (fun x => CloudManager.jsNumber x.asString)
        = ((CloudManager.splitComponents r.data).map CloudManager.digitsToNat).map
            (fun a => CloudManager.JsNum.fin false a 0) := by
      rw [List.map_map]
      refine List.map_congr_left ?_
      intro comp hmem
      obtain ⟨hdig, hlt⟩ := hcr comp hmem
      exact CloudManager.jsNumber_digits comp hdig hlt
    rw [hml, hmr, CloudManager.versionPairs_map_fin,
      CloudManager.firstDiffNewer_map_fin, CloudManager.natFirstDiff_iff]
    constructor
    · rintro ⟨i, hpre, hlt⟩
      refine ⟨i, ?_, ?_⟩
      · intro j hj
        have := hpre j hj
        rwa [CloudManager.natPairs_getD] at this
      · have := hlt
        rwa [CloudManager.natPairs_getD] at this
    · rintro ⟨i, hpre, hlt⟩
      refine ⟨i, ?_, ?_⟩
      · intro j hj
        rw [CloudManager.natPairs_getD]
        exact hpre j hj
      · rw [CloudManager.natPairs_getD]
        exact hlt

theorem isNewer_rule_witness :
    (CloudManager.isUpdateAvailable "5" "12" = true ↔
      CloudManager.digitsToNat "5".data < CloudManager.digitsToNat "12".data) ∧
    (CloudManager.isUpdateAvailable "1.2.0" "1.10.0" = true ↔
      ∃ i, (∀ j, j < i →
          CloudManager.nthComp "1.2.0" j = CloudManager.nthComp "1.10.0" j) ∧
        CloudManager.nthComp "1.2.0" i < CloudManager.nthComp "1.10.0" i) :=
  ⟨isNewer_rule.2.1 "5" "12" (by decide) (by decide) (by decide) (by decide)
      (by decide),
   isNewer_rule.2.2.1 "1.2.0" "1.10.0" (by decide) (by decide) (by decide)
      (by decide)⟩

/-- C7 counterexample: the code compares `Number()` doubles, which collapse
at `2^53`:  both `"9007199254740992"` (`2^53`) and `"9007199254740993"`
(`2^53 + 1`) round to the double `2^53`, so although the remote integer is
strictly larger, `isUpdateAvailable` answers `false` on the pure-digit
branch. -/
theorem isNewer_double_collapse_counterexample :
    CloudManager.isDigitString "9007199254740992" = true ∧
    CloudManager.isDigitString "9007199254740993" = true ∧
    CloudManager.digitsToNat "9007199254740992".data
      < CloudManager.digitsToNat "9007199254740993".data ∧
    CloudManager.isUpdateAvailable "9007199254740992" "9007199254740993"
      = false := by
  refine ⟨by decide, by decide, by decide, by decide⟩

/-! ## Resolution-order and fallback theorems -/

/-- Reduction of `t` to the candidate list search when a context parameter is
the only parameter supplied. -/
theorem t_context_only (tr : I18nTranslator) (k ctx : String) (hctx : ctx ≠ "") :
    tr.t k (some [("context", PVal.str ctx)])
      = (I18nTranslator.findTemplate (mapGet tr.dictionaries tr.currentLocale)
          tr.baseDictionary [k ++ "_" ++ ctx, k]).getD k := by
  have h1 : I18nTranslator.getContext (some [("context", PVal.str ctx)])
      = some (PVal.str ctx) := by
    simp [I18nTranslator.getContext, mapGet]
  have hkeys : I18nTranslator.lookupKeysOf k (some (PVal.str ctx))
      = [k ++ "_" ++ ctx, k] := by
    simp [I18nTranslator.lookupKeysOf, PVal.truthy, PVal.display, hctx]
  unfold I18nTranslator.t
  rw [h1]
  simp only [hkeys]
  cases hft : I18nTranslator.findTemplate (mapGet tr.dictionaries tr.currentLocale)
      tr.baseDictionary [k ++ "_" ++ ctx, k] with
  | none => simp
  | some tmpl => simp

/-- Reduction of `t` with no parameters. -/
theorem t_no_params (tr : I18nTranslator) (k : String) :
    tr.t k none
      = (I18nTranslator.findTemplate (mapGet tr.dictionaries tr.currentLocale)
          tr.baseDictionary [k]).getD k := by
  unfold I18nTranslator.t
  have h1 : I18nTranslator.getContext none = none := rfl
  rw [h1]
  have hkeys : I18nTranslator.lookupKeysOf k none = [k] := rfl
  simp only [hkeys]
  cases hft : I18nTranslator.findTemplate (mapGet tr.dictionaries tr.currentLocale)
      tr.baseDictionary [k] with
  | none => simp
  | some tmpl => simp

/-- C1: with a (truthy) context, `t` probes exactly in the order
`(contextKey, currentLocale)`, `(contextKey, base)`, `(plainKey,
currentLocale)`, `(plainKey, base)` and returns the first string-typed
match (the raw key when all four probes miss); in particular a context hit
in the current-locale overlay wins over the plain key. -/
theorem resolve_probe_order (tr : I18nTranslator) (k ctx : String) (hctx : ctx ≠ "") :
    (∀ s, (mapGet tr.dictionaries tr.currentLocale).bind
        (fun d => I18nTranslator.dictGetStr d (k ++ "_" ++ ctx)) = some s →
      tr.t k (some [("context", PVal.str ctx)]) = s) ∧
    ((mapGet tr.dictionaries tr.currentLocale).bind
        (fun d => I18nTranslator.dictGetStr d (k ++ "_" ++ ctx)) = none →
      ∀ s, I18nTranslator.dictGetStr tr.baseDictionary (k ++ "_" ++ ctx) = some s →
      tr.t k (some [("context", PVal.str ctx)]) = s) ∧
    ((mapGet tr.dictionaries tr.currentLocale).bind
        (fun d => I18nTranslator.dictGetStr d (k ++ "_" ++ ctx)) = none →
      I18nTranslator.dictGetStr tr.baseDictionary (k ++ "_" ++ ctx) = none →
      ∀ s, (mapGet tr.dictionaries tr.currentLocale).bind
          (fun d => I18nTranslator.dictGetStr d k) = some s →
      tr.t k (some [("context", PVal.str ctx)]) = s) ∧
    ((mapGet tr.dictionaries tr.currentLocale).bind
        (fun d => I18nTranslator.dictGetStr d (k ++ "_" ++ ctx)) = none →
      I18nTranslator.dictGetStr tr.baseDictionary (k ++ "_" ++ ctx) = none →
      (mapGet tr.dictionaries tr.currentLocale).bind
          (fun d => I18nTranslator.dictGetStr d k) = none →
      ∀ s, I18nTranslator.dictGetStr tr.baseDictionary k = some s →
      tr.t k (some [("context", PVal.str ctx)]) = s) ∧
    ((mapGet tr.dictionaries tr.currentLocale).bind
        (fun d => I18nTranslator.dictGetStr d (k ++ "_" ++ ctx)) = none →
      I18nTranslator.dictGetStr tr.baseDictionary (k ++ "_" ++ ctx) = none →
      (mapGet tr.dictionaries tr.currentLocale).bind
          (fun d => I18nTranslator.dictGetStr d k) = none →
      I18nTranslator.dictGetStr tr.baseDictionary k = none →
      tr.t k (some [("context", PVal.str ctx)]) = k) := by
  have ht := t_context_only tr k ctx hctx
  refine ⟨?_, ?_, ?_, ?_, ?_⟩
  · intro s h1
    rw [ht]
    simp [I18nTranslator.findTemplate, h1]
  · intro h1 s h2
    rw [ht]
    simp [I18nTranslator.findTemplate, h1, h2]
  · intro h1 h2 s h3
    rw [ht]
    simp [I18nTranslator.findTemplate, h1, h2, h3]
  · intro h1 h2 h3 s h4
    rw [ht]
    simp [I18nTranslator.findTemplate, h1, h2, h3, h4]
  · intro h1 h2 h3 h4
    rw [ht]
    simp [I18nTranslator.findTemplate, h1, h2, h3, h4]

/-- A translator with both `greet_f` and `greet` in the current-locale
overlay and in the base dictionary. -/
def sampleTrCtx : I18nTranslator :=
  { pluginId := "sample-plugin", baseLocale := "en", currentLocale := "de",
    baseDictionary := [("greet", JsonVal.str "Hello"), ("greet_f", JsonVal.str "HelloF")],
    dictionaries := [("en", [("greet", JsonVal.str "Hello"), ("greet_f", JsonVal.str "HelloF")]),
                     ("de", [("greet", JsonVal.str "Hallo"), ("greet_f", JsonVal.str "HalloF")])] }

theorem resolve_probe_order_witness :
    sampleTrCtx.t "greet" (some [("context", PVal.str "f")]) = "HalloF" :=
  (resolve_probe_order sampleTrCtx "greet" "f" (by decide)).1 "HalloF" rfl

/-- C2 counterexample: the base dictionary may legitimately store the empty
string as a translation, and then `resolve` of a key present in the base
dictionary does return the empty string. -/
theorem resolve_empty_translation_counterexample :
    mapHas (createTranslator
      { pluginId := "p", baseLocale := "en",
        baseDictionary := [("k", JsonVal.str "")],
        currentLocale := none }).baseDictionary "k" = true ∧
    (createTranslator
      { pluginId := "p", baseLocale := "en",
        baseDictionary := [("k", JsonVal.str "")],
        currentLocale := none }).t "k" none = "" :=
  ⟨rfl, rfl⟩

/-- C2 (amended): `resolve(key)` never throws and always returns either the
first string found by the candidate × tier search or the raw key itself;
when the key has a string value in the base dictionary and the probed
translations are non-empty strings, the result is non-empty. -/
theorem resolve_fallback_completeness (tr : I18nTranslator) (k s0 : String)
    (hbase : I18nTranslator.dictGetStr tr.baseDictionary k = some s0)
    (h0 : s0 ≠ "")
    (hcur : ∀ s, (mapGet tr.dictionaries tr.currentLocale).bind
        (fun d => I18nTranslator.dictGetStr d k) = some s → s ≠ "") :
    tr.t k none ≠ "" ∧
    tr.t k none = (I18nTranslator.findTemplate (mapGet tr.dictionaries tr.currentLocale)
        tr.baseDictionary [k]).getD k := by
  have ht := t_no_params tr k
  refine ⟨?_, ht⟩
  rw [ht]
  cases hcb : (mapGet tr.dictionaries tr.currentLocale).bind
      (fun d => I18nTranslator.dictGetStr d k) with
  | some s =>
    have hres : (I18nTranslator.findTemplate (mapGet tr.dictionaries tr.currentLocale)
        tr.baseDictionary [k]).getD k = s := by
      simp [I18nTranslator.findTemplate, hcb]
    rw [hres]
    exact hcur s hcb
  | none =>
    have hres : (I18nTranslator.findTemplate (mapGet tr.dictionaries tr.currentLocale)
        tr.baseDictionary [k]).getD k = s0 := by
      simp [I18nTranslator.findTemplate, hcb, hbase]
    rw [hres]
    exact h0

theorem resolve_fallback_completeness_witness :
    sampleTr.t "hello" none ≠ "" :=
  (resolve_fallback_completeness sampleTr "hello" "Hello" rfl (by decide)
    (fun _ h => Option.noConfusion h)).1

/-! ## Validation theorems -/

/-- Validating an object payload whose `$meta` is absent or an object, and
that holds some non-string non-`$meta` value, yields `valid := false`. -/
theorem validateDictionary_obj_invalid (tr : I18nTranslator) (l : Dict)
    (k0 : String) (v0 : JsonVal)
    (hmeta : mapGet l "$meta" = none ∨ ∃ ml, mapGet l "$meta" = some (JsonVal.obj ml))
    (hk0 : mapGet l k0 = some v0) (hk0m : k0 ≠ "$meta") (hv0 : typeName v0 ≠ "string") :
    ∃ r, tr.validateDictionary (JsonVal.obj l) = .ok r ∧ r.valid = false := by
  have hmem : k0 ∈ ((l.map (fun p => p.1)).filter (fun k => !(k == "$meta"))) := by
    rw [List.mem_filter]
    exact ⟨mem_keys_of_mapGet_some l k0 v0 hk0,
      by simp [bne_iff_ne, hk0m]⟩
  have hf : (fun k =>
      if typeName ((mapGet l k).getD JsonVal.null) != "string" && k != "$meta" then
        some (⟨k, "Value for \"" ++ k ++ "\" must be a string, got "
          ++ typeName ((mapGet l k).getD JsonVal.null)⟩ : ValidationError)
      else none) k0 ≠ none := by
    simp only [hk0, Option.getD_some]
    rw [if_pos]
    · exact fun h => Option.noConfusion h
    · simp [bne_iff_ne, hv0, hk0m]
  have hne : ((l.map (fun p => p.1)).filter (fun k => !(k == "$meta"))).filterMap (fun k =>
      if typeName ((mapGet l k).getD JsonVal.null) != "string" && k != "$meta" then
        some (⟨k, "Value for \"" ++ k ++ "\" must be a string, got "
          ++ typeName ((mapGet l k).getD JsonVal.null)⟩ : ValidationError)
      else none) ≠ [] := by
    intro hnil
    rw [List.filterMap_eq_nil_iff] at hnil
    exact hf (hnil k0 hmem)
  unfold I18nTranslator.validateDictionary
  simp only [show jsTruthy (JsonVal.obj l) = true from rfl,
    show typeName (JsonVal.obj l) = "object" from rfl,
    Bool.not_true, bne_self_eq_false, Bool.or_false,
    Bool.false_eq_true, if_false, show toEntries (JsonVal.obj l) = l from rfl]
  rcases hmeta with hm | ⟨ml, hm⟩ <;>
    simp only [hm] <;>
    refine ⟨_, rfl, ?_⟩ <;>
    · show ([] ++ _).isEmpty = false
      rw [List.nil_append]
      cases hve : ((l.map (fun p => p.1)).filter (fun k => !(k == "$meta"))).filterMap _ with
      | nil => exact absurd hve hne
      | cons a as => rfl

/-- Validating an object payload whose `$meta` is absent or an object, and
whose every non-`$meta` binding holds a string, yields `valid := true`. -/
theorem validateDictionary_obj_valid (tr : I18nTranslator) (l : Dict)
    (hmeta : mapGet l "$meta" = none ∨ ∃ ml, mapGet l "$meta" = some (JsonVal.obj ml))
    (hall : ∀ k v, mapGet l k = some v → k ≠ "$meta" → typeName v = "string") :
    ∃ r, tr.validateDictionary (JsonVal.obj l) = .ok r ∧ r.valid = true := by
  have hnil : ((l.map (fun p => p.1)).filter (fun k => !(k == "$meta"))).filterMap (fun k =>
      if typeName ((mapGet l k).getD JsonVal.null) != "string" && k != "$meta" then
        some (⟨k, "Value for \"" ++ k ++ "\" must be a string, got "
          ++ typeName ((mapGet l k).getD JsonVal.null)⟩ : ValidationError)
      else none) = [] := by
    rw [List.filterMap_eq_nil_iff]
    intro k hk
    rw [List.mem_filter] at hk
    have hkm : k ≠ "$meta" := by
      have := hk.2
      simpa [bne_iff_ne] using this
    obtain ⟨v, hv⟩ := mapGet_isSome_of_mem_keys l k hk.1
    have hstr := hall k v hv hkm
    rw [if_neg]
    simp only [hv, Option.getD_some, hstr]
    simp
  unfold I18nTranslator.validateDictionary
  simp only [show jsTruthy (JsonVal.obj l) = true from rfl,
    show typeName (JsonVal.obj l) = "object" from rfl,
    Bool.not_true, bne_self_eq_false, Bool.or_false,
    Bool.false_eq_true, if_false, show toEntries (JsonVal.obj l) = l from rfl]
  rcases hmeta with hm | ⟨ml, hm⟩ <;>
    simp only [hm] <;>
    refine ⟨_, rfl, ?_⟩ <;>
    · show ([] ++ _).isEmpty = true
      rw [List.nil_append, hnil]
      rfl

/-- C4 (amended): provided `$meta`, when present, is an object (a `null`
`$meta` makes validation throw, see the C5 bug), loading an object payload
with a non-string non-`$meta` value returns `valid: false` and leaves the
stored overlays unchanged; when that value was the only non-string one,
loading the same payload with it fixed to a string returns `valid: true`
(warnings allowed) and stores the overlay. -/
theorem validation_monotonicity (tr : I18nTranslator) (loc : String) (l : Dict)
    (k0 : String) (v0 : JsonVal) (s : String)
    (hmeta : mapGet l "$meta" = none ∨ ∃ ml, mapGet l "$meta" = some (JsonVal.obj ml))
    (hk0 : mapGet l k0 = some v0) (hk0m : k0 ≠ "$meta") (hv0 : typeName v0 ≠ "string") :
    (∃ r, tr.loadDictionary loc (JsonVal.obj l) = .ok (r, tr) ∧ r.valid = false) ∧
    ((∀ k v, mapGet l k = some v → k ≠ "$meta" → k ≠ k0 → typeName v = "string") →
      ∃ r, tr.loadDictionary loc (JsonVal.obj (mapSet l k0 (JsonVal.str s)))
          = .ok (r, { tr with
              dictionaries := mapSet tr.dictionaries loc (mapSet l k0 (JsonVal.str s)) }) ∧
        r.valid = true) := by
  constructor
  · obtain ⟨r, hr, hv⟩ := validateDictionary_obj_invalid tr l k0 v0 hmeta hk0 hk0m hv0
    refine ⟨r, ?_, hv⟩
    unfold I18nTranslator.loadDictionary
    rw [hr]
    simp [hv]
  · intro honly
    have hmeta' : mapGet (mapSet l k0 (JsonVal.str s)) "$meta" = none ∨
        ∃ ml, mapGet (mapSet l k0 (JsonVal.str s)) "$meta" = some (JsonVal.obj ml) := by
      rw [mapGet_mapSet_ne l k0 "$meta" (JsonVal.str s) (fun h => hk0m h.symm)]
      exact hmeta
    have hall : ∀ k v, mapGet (mapSet l k0 (JsonVal.str s)) k = some v →
        k ≠ "$meta" → typeName v = "string" := by
      intro k v hv hkm
      by_cases hk : k = k0
      · subst hk
        rw [mapGet_mapSet_self] at hv
        cases hv
        rfl
      · rw [mapGet_mapSet_ne l k0 k (JsonVal.str s) hk] at hv
        exact honly k v hv hkm hk
    obtain ⟨r, hr, hvalid⟩ :=
      validateDictionary_obj_valid tr (mapSet l k0 (JsonVal.str s)) hmeta' hall
    refine ⟨r, ?_, hvalid⟩
    unfold I18nTranslator.loadDictionary
    rw [hr]
    simp only [hvalid, Bool.not_true, Bool.false_eq_true, if_false]
    rfl

/-- C4 counterexample: a payload with a non-string value and a `null` `$meta`
does not return `valid: false` — `loadDictionary` throws while validating
(the C5 typeof-null bug), refuting the claim for every payload. -/
theorem load_invalid_payload_counterexample :
    sampleTr.loadDictionary "fr"
        (JsonVal.obj [("$meta", JsonVal.null), ("hello", JsonVal.num 1)])
      = Except.error "TypeError: Cannot read properties of null (reading locale)" := rfl

theorem validation_monotonicity_witness :
    (∃ r, sampleTr.loadDictionary "fr" (JsonVal.obj [("hello", JsonVal.num 1)])
        = .ok (r, sampleTr) ∧ r.valid = false) ∧
    (∃ r, sampleTr.loadDictionary "fr"
        (JsonVal.obj (mapSet [("hello", JsonVal.num 1)] "hello" (JsonVal.str "Bonjour")))
      = .ok (r, { sampleTr with
          dictionaries := mapSet sampleTr.dictionaries "fr"
            (mapSet [("hello", JsonVal.num 1)] "hello" (JsonVal.str "Bonjour")) }) ∧
      r.valid = true) := by
  have H := validation_monotonicity sampleTr "fr" [("hello", JsonVal.num 1)]
    "hello" (JsonVal.num 1) "Bonjour" (Or.inl rfl) rfl (by decide) (by decide)
  refine ⟨H.1, H.2 ?_⟩
  intro k v h _ hk
  rw [mapGet_cons] at h
  by_cases hb : (("hello" : String) == k) = true
  · have heq : ("hello" : String) = k := by simpa using hb
    exact absurd heq.symm hk
  · simp only [Bool.not_eq_true] at hb
    rw [hb] at h
    simp only [Bool.false_eq_true, if_false] at h
    exact Option.noConfusion h

/-! ## Interpolation lemmas -/

theorem spanWord_word_prefix (nL : List Char) (tail : List Char)
    (hw : ∀ c ∈ nL, isWordChar c = true) :
    spanWord (nL ++ '}' :: tail) = (nL, '}' :: tail) := by
  induction nL with
  | nil =>
    have h : isWordChar '}' = false := by decide
    simp [spanWord, h]
  | cons c nrest ih =>
    have hc : isWordChar c = true := hw c (by simp)
    have ih2 := ih (fun c hc2 => hw c (by simp [hc2]))
    simp [spanWord, hc, ih2]

theorem spanWord_rest_le (l : List Char) : (spanWord l).2.length ≤ l.length := by
  induction l with
  | nil => simp [spanWord]
  | cons c cs ih =>
    by_cases hc : isWordChar c = true
    · simp only [spanWord, hc, if_true]
      exact le_trans ih (by simp)
    · simp only [Bool.not_eq_true] at hc
      simp [spanWord, hc]

theorem matchClose_single (tail : List Char) (ht : tail.head? ≠ some '}') :
    matchClose ('}' :: tail) = some (['}'], tail) := by
  cases tail with
  | nil => rfl
  | cons c2 t2 =>
    have hc2 : ¬(c2 = '}') := by
      intro h
      exact ht (by simp [h])
    simp [matchClose, hc2]

theorem matchClose_double (r : List Char) :
    matchClose ('}' :: '}' :: r) = some (['}', '}'], r) := rfl

theorem matchClose_rest_le (l : List Char) (cl r : List Char)
    (h : matchClose l = some (cl, r)) : r.length ≤ l.length := by
  cases l with
  | nil => exact absurd h (by simp [matchClose])
  | cons c rest =>
    by_cases hc : c = '}'
    · subst hc
      cases rest with
      | nil =>
        have he : matchClose ['}'] = some (['}'], []) := rfl
        rw [he] at h
        cases h
        simp
      | cons c2 rest2 =>
        by_cases hc2 : c2 = '}'
        · subst hc2
          rw [matchClose_double rest2] at h
          cases h
          simp only [List.length_cons]
          omega
        · have he : matchClose ('}' :: c2 :: rest2) = some (['}'], c2 :: rest2) := by
            simp [matchClose, hc2]
          rw [he] at h
          cases h
          simp only [List.length_cons]
          omega
    · have he : matchClose (c :: rest) = none := by simp [matchClose, hc]
      rw [he] at h
      exact absurd h (by simp)

theorem isWordChar_ne_lbrace (c : Char) (hc : isWordChar c = true) : c ≠ '{' := by
  intro h
  subst h
  exact absurd hc (by decide)

theorem matchPlaceholder_single (nL tail : List Char) (hn : nL ≠ [])
    (hw : ∀ c ∈ nL, isWordChar c = true) (ht : tail.head? ≠ some '}') :
    matchPlaceholder (nL ++ '}' :: tail) = some (nL.asString, nL ++ ['}'], tail) := by
  cases nL with
  | nil => exact absurd rfl hn
  | cons c nrest =>
    have hc : ¬(c = '{') := isWordChar_ne_lbrace c (hw c (by simp))
    have hsw : spanWord (c :: (nrest ++ '}' :: tail)) = (c :: nrest, '}' :: tail) := by
      have h2 := spanWord_word_prefix (c :: nrest) tail hw
      simpa using h2
    simp only [List.cons_append, matchPlaceholder, hc, if_false, hsw,
      matchClose_single tail ht]
    simp

theorem matchPlaceholder_double (nL post : List Char) (hn : nL ≠ [])
    (hw : ∀ c ∈ nL, isWordChar c = true) :
    matchPlaceholder ('{' :: (nL ++ '}' :: '}' :: post))
      = some (nL.asString, '{' :: (nL ++ ['}', '}']), post) := by
  have hsw : spanWord (nL ++ '}' :: '}' :: post) = (nL, '}' :: '}' :: post) :=
    spanWord_word_prefix nL ('}' :: post) hw
  simp only [matchPlaceholder, hsw, matchClose_double]
  simp [hn]

theorem matchPlaceholder_rest_le (cs : List Char) (g : String) (mt r : List Char)
    (h : matchPlaceholder cs = some (g, mt, r)) : r.length ≤ cs.length := by
  cases cs with
  | nil => exact absurd h (by simp [matchPlaceholder])
  | cons c cs2 =>
    simp only [matchPlaceholder] at h
    by_cases hc : c = '{'
    · rw [if_pos hc] at h
      by_cases hp : (spanWord cs2).1 = []
      · rw [if_pos hp] at h
        exact absurd h (by simp)
      · rw [if_neg hp] at h
        cases hmc : matchClose (spanWord cs2).2 with
        | none => rw [hmc] at h; exact absurd h (by simp)
        | some pr =>
          obtain ⟨cl, r2⟩ := pr
          rw [hmc] at h
          simp only [Option.some.injEq, Prod.mk.injEq] at h
          obtain ⟨-, -, hr⟩ := h
          subst hr
          calc r2.length ≤ (spanWord cs2).2.length := matchClose_rest_le _ _ _ hmc
            _ ≤ cs2.length := spanWord_rest_le cs2
            _ ≤ (c :: cs2).length := by simp
    · rw [if_neg hc] at h
      by_cases hp : (spanWord (c :: cs2)).1 = []
      · rw [if_pos hp] at h
        exact absurd h (by simp)
      · rw [if_neg hp] at h
        cases hmc : matchClose (spanWord (c :: cs2)).2 with
        | none => rw [hmc] at h; exact absurd h (by simp)
        | some pr =>
          obtain ⟨cl, r2⟩ := pr
          rw [hmc] at h
          simp only [Option.some.injEq, Prod.mk.injEq] at h
          obtain ⟨-, -, hr⟩ := h
          subst hr
          exact le_trans (matchClose_rest_le _ _ _ hmc) (spanWord_rest_le (c :: cs2))

theorem interpGo_fuel (ps : Params) :
    ∀ (f g : Nat) (l : List Char), l.length ≤ f → l.length ≤ g →
      interpGo ps f l = interpGo ps g l := by
  intro f
  induction f with
  | zero =>
    intro g l hf _
    cases l with
    | nil => cases g <;> rfl
    | cons c cs => simp at hf
  | succ f ih =>
    intro g l hf hg
    cases l with
    | nil => cases g <;> rfl
    | cons c cs =>
      cases g with
      | zero => simp at hg
      | succ g2 =>
        simp only [List.length_cons, Nat.add_le_add_iff_right] at hf hg
        show interpGo ps (f + 1) (c :: cs) = interpGo ps (g2 + 1) (c :: cs)
        unfold interpGo
        by_cases hc : c = '{'
        · rw [if_pos hc, if_pos hc]
          cases hmp : matchPlaceholder cs with
          | none =>
            rw [ih g2 cs hf hg]
          | some trip =>
            obtain ⟨g0, mt, r⟩ := trip
            have hr : r.length ≤ cs.length := matchPlaceholder_rest_le cs g0 mt r hmp
            show (match paramLookup ps g0 with
                  | some v => v.display.data
                  | none => '{' :: mt) ++ interpGo ps f r
                = (match paramLookup ps g0 with
                  | some v => v.display.data
                  | none => '{' :: mt) ++ interpGo ps g2 r
            rw [ih g2 r (le_trans hr hf) (le_trans hr hg)]
        · rw [if_neg hc, if_neg hc]
          rw [ih g2 cs hf hg]

theorem interpChars_cons_ne (ps : Params) (c : Char) (cs : List Char) (hc : c ≠ '{') :
    interpChars ps (c :: cs) = c :: interpChars ps cs := by
  show interpGo ps (c :: cs).length (c :: cs) = c :: interpGo ps cs.length cs
  simp only [List.length_cons, interpGo]
  rw [if_neg hc]

theorem interpChars_cons_none (ps : Params) (cs : List Char)
    (hmp : matchPlaceholder cs = none) :
    interpChars ps ('{' :: cs) = '{' :: interpChars ps cs := by
  show interpGo ps ('{' :: cs).length ('{' :: cs) = '{' :: interpGo ps cs.length cs
  simp only [List.length_cons, interpGo, if_true]
  rw [hmp]

theorem interpChars_cons_match (ps : Params) (cs : List Char) (g : String)
    (mt r : List Char) (hmp : matchPlaceholder cs = some (g, mt, r)) :
    interpChars ps ('{' :: cs)
      = (match paramLookup ps g with
         | some v => (PVal.display v).data
         | none => '{' :: mt) ++ interpChars ps r := by
  show interpGo ps ('{' :: cs).length ('{' :: cs)
      = (match paramLookup ps g with
         | some v => (PVal.display v).data
         | none => '{' :: mt) ++ interpGo ps r.length r
  simp only [List.length_cons, interpGo, if_true]
  rw [hmp]
  show (match paramLookup ps g with
        | some v => (PVal.display v).data
        | none => '{' :: mt) ++ interpGo ps cs.length r
      = (match paramLookup ps g with
        | some v => (PVal.display v).data
        | none => '{' :: mt) ++ interpGo ps r.length r
  congr 1
  exact interpGo_fuel ps cs.length r.length r
    (matchPlaceholder_rest_le cs g mt r hmp) (le_refl _)

theorem interpChars_append_no_brace (ps : Params) (preL rest : List Char)
    (hpre : ∀ c ∈ preL, c ≠ '{') :
    interpChars ps (preL ++ rest) = preL ++ interpChars ps rest := by
  induction preL with
  | nil => rfl
  | cons c pre2 ih =>
    have hc : c ≠ '{' := hpre c (by simp)
    rw [List.cons_append, interpChars_cons_ne ps c (pre2 ++ rest) hc,
      ih (fun c2 hc2 => hpre c2 (by simp [hc2]))]
    rfl

/-- C6 (corrected): after resolution, when the params minus the reserved
`context` field are non-empty, `t` hands the template to `interpolate`, which
replaces every occurrence of a `{name}` or `{{name}}` placeholder whose name
is an own parameter with `String(params[name])`; a placeholder whose name is
neither a parameter nor an `Object.prototype` member is left verbatim, but
one naming an inherited `Object.prototype` member is replaced with the
stringified inherited value (the `params[key]` read at translator.ts:115 is
not guarded by `hasOwnProperty`); `resolve("Hi {missing}", {})` returns
`"Hi {missing}"` unchanged. -/
theorem interpolation_spec :
    (∀ (tr : I18nTranslator) (k : String) (ps : Params) (tmpl : String),
        I18nTranslator.findTemplate (mapGet tr.dictionaries tr.currentLocale)
            tr.baseDictionary
            (I18nTranslator.lookupKeysOf k (I18nTranslator.getContext (some ps)))
          = some tmpl →
        ps.filter (fun p => !(p.1 == "context")) ≠ [] →
        tr.t k (some ps) = interpolate tmpl (ps.filter (fun p => !(p.1 == "context")))) ∧
    (∀ (pre n post : String) (ps : Params) (v : PVal),
        (∀ c ∈ pre.data, c ≠ '{') →
        n.data ≠ [] → (∀ c ∈ n.data, isWordChar c = true) →
        post.data.head? ≠ some '}' →
        mapGet ps n = some v →
        interpolate (pre ++ "\x7b" ++ n ++ "\x7d" ++ post) ps
          = pre ++ v.display ++ interpolate post ps) ∧
    (∀ (pre n post : String) (ps : Params) (v : PVal),
        (∀ c ∈ pre.data, c ≠ '{') →
        n.data ≠ [] → (∀ c ∈ n.data, isWordChar c = true) →
        mapGet ps n = some v →
        interpolate (pre ++ "\x7b\x7b" ++ n ++ "\x7d\x7d" ++ post) ps
          = pre ++ v.display ++ interpolate post ps) ∧
    (∀ (pre n post : String) (ps : Params),
        (∀ c ∈ pre.data, c ≠ '{') →
        n.data ≠ [] → (∀ c ∈ n.data, isWordChar c = true) →
        post.data.head? ≠ some '}' →
        mapGet ps n = none →
        objectProtoNames.contains n = false →
        interpolate (pre ++ "\x7b" ++ n ++ "\x7d" ++ post) ps
          = pre ++ "\x7b" ++ n ++ "\x7d" ++ interpolate post ps) ∧
    (∀ (pre n post : String) (ps : Params),
        (∀ c ∈ pre.data, c ≠ '{') →
        n.data ≠ [] → (∀ c ∈ n.data, isWordChar c = true) →
        post.data.head? ≠ some '}' →
        mapGet ps n = none →
        objectProtoNames.contains n = true →
        interpolate (pre ++ "\x7b" ++ n ++ "\x7d" ++ post) ps
          = pre ++ (objectProtoValue n).display ++ interpolate post ps) ∧
    sampleTr.t "Hi \x7bmissing\x7d" (some []) = "Hi \x7bmissing\x7d" := by
  refine ⟨?_, ?_, ?_, ?_, ?_, rfl⟩
  · intro tr k ps tmpl hft hne
    have hlen : (ps.filter (fun p => !(p.1 == "context"))).length > 0 :=
      List.length_pos.mpr hne
    unfold I18nTranslator.t
    simp only [hft, hlen, if_true]
  · intro pre n post ps v hpre hn hw hpost hv
    have hv2 : paramLookup ps n = some v := by
      simp only [paramLookup, hv]
    have ha : n.data.asString = n := rfl
    have hdata : (pre ++ "\x7b" ++ n ++ "\x7d" ++ post).data
        = pre.data ++ ('{' :: (n.data ++ '}' :: post.data)) := by
      simp [String.data_append]
    unfold interpolate
    rw [hdata, interpChars_append_no_brace ps pre.data _ hpre,
      interpChars_cons_match ps _ n.data.asString (n.data ++ ['}']) post.data
        (matchPlaceholder_single n.data post.data hn hw hpost),
      ha, hv2]
    apply str_data_ext
    simp [asString_data, String.data_append]
  · intro pre n post ps v hpre hn hw hv
    have hv2 : paramLookup ps n = some v := by
      simp only [paramLookup, hv]
    have ha : n.data.asString = n := rfl
    have hdata : (pre ++ "\x7b\x7b" ++ n ++ "\x7d\x7d" ++ post).data
        = pre.data ++ ('{' :: ('{' :: (n.data ++ '}' :: '}' :: post.data))) := by
      simp [String.data_append]
    unfold interpolate
    rw [hdata, interpChars_append_no_brace ps pre.data _ hpre,
      interpChars_cons_match ps _ n.data.asString ('{' :: (n.data ++ ['}', '}'])) post.data
        (matchPlaceholder_double n.data post.data hn hw),
      ha, hv2]
    apply str_data_ext
    simp [asString_data, String.data_append]
  · intro pre n post ps hpre hn hw hpost hv hcont
    have hv2 : paramLookup ps n = none := by
      simp only [paramLookup, hv, hcont, Bool.false_eq_true, if_false]
    have ha : n.data.asString = n := rfl
    have hdata : (pre ++ "\x7b" ++ n ++ "\x7d" ++ post).data
        = pre.data ++ ('{' :: (n.data ++ '}' :: post.data)) := by
      simp [String.data_append]
    unfold interpolate
    rw [hdata, interpChars_append_no_brace ps pre.data _ hpre,
      interpChars_cons_match ps _ n.data.asString (n.data ++ ['}']) post.data
        (matchPlaceholder_single n.data post.data hn hw hpost),
      ha, hv2]
    apply str_data_ext
    simp [asString_data, String.data_append]
  · intro pre n post ps hpre hn hw hpost hv hcont
    have hv2 : paramLookup ps n = some (objectProtoValue n) := by
      simp only [paramLookup, hv, hcont, if_true]
    have ha : n.data.asString = n := rfl
    have hdata : (pre ++ "\x7b" ++ n ++ "\x7d" ++ post).data
        = pre.data ++ ('{' :: (n.data ++ '}' :: post.data)) := by
      simp [String.data_append]
    unfold interpolate
    rw [hdata, interpChars_append_no_brace ps pre.data _ hpre,
      interpChars_cons_match ps _ n.data.asString (n.data ++ ['}']) post.data
        (matchPlaceholder_single n.data post.data hn hw hpost),
      ha, hv2]
    apply str_data_ext
    simp [asString_data, String.data_append]

theorem interpolation_spec_witness :
    interpolate ("Hi " ++ "\x7b" ++ "name" ++ "\x7d" ++ "!") [("name", PVal.str "Ann")]
      = "Hi " ++ (PVal.str "Ann").display
          ++ interpolate "!" [("name", PVal.str "Ann")] :=
  interpolation_spec.2.1 "Hi " "name" "!" [("name", PVal.str "Ann")] (PVal.str "Ann")
    (by decide) (by decide) (by decide) (by decide) rfl

/-- A translator whose base dictionary stores a template containing a
`{constructor}` placeholder. -/
def sampleTrProto : I18nTranslator :=
  createTranslator
    { pluginId := "demo"
      baseLocale := "en"
      baseDictionary := [("greet", JsonVal.str "Hi \x7bconstructor\x7d")]
      currentLocale := none }

/-- C6 counterexample: `constructor` is not an own property of the parameter
bag `{x: 1}`, yet `t("greet", {x: 1})` on the template `"Hi {constructor}"`
does not leave the placeholder verbatim — `params["constructor"]` finds the
inherited `Object.prototype.constructor`, so the output is
`"Hi function Object() { [native code] }"`. -/
theorem interpolation_proto_counterexample :
    mapGet ([("x", PVal.num 1)] : Params) "constructor" = none ∧
    sampleTrProto.t "greet" (some [("x", PVal.num 1)])
      = "Hi function Object() \x7b [native code] \x7d" ∧
    sampleTrProto.t "greet" (some [("x", PVal.num 1)]) ≠ "Hi \x7bconstructor\x7d" := by
  refine ⟨by decide, by decide, by decide⟩


end I18nPlus
